import Mathlib

/-!
Verification of the MCTS move-selection module `src/mcts_modified.py`.

The Python module builds a search tree of `MCTSNode` objects (imported from
`mcts_node`, which is not among the sources; its constructor is modelled from
the design document's §3 "Tree Node"), walks it with a UCB1-style selection
rule, expands one child per iteration, plays a heuristic-weighted random
rollout, and backpropagates the boolean outcome.

Embedding choices:
* The mutable object graph becomes a store: `Tree := List MCTSNode`, node ids
  are list indices, the root is id `0`.  A child holds `parent : Option Nat`;
  the parent holds an insertion-ordered association list
  `child_nodes : List (Act × Nat)` mirroring the Python dict.
* Python floats become real numbers; `float('inf')` makes the UCB score an
  `EReal`.
* The game engine (`Board`) is an abstract record of its §6 interface;
  `points_values` returns `none` on non-terminal states, as the `assert` in
  `is_win` expects.
* Python `while` loops become fuel-indexed recursions; the fuel is chosen
  large enough that, under the tree well-formedness invariant (resp. the
  engine's finite-game guarantee), the fuel branch is never taken.
* `random.choice` becomes indexing by an externally supplied stream of
  naturals, one draw per rollout step.
-/

namespace Mcts

/-- Actions of the target game are 4-tuples; `rollout` destructures an action
as `_, _, r, c` where `(r, c)` is the cell inside a 3×3 local grid. -/
abbrev Act : Type := Nat × Nat × Nat × Nat

/-- The game-engine interface consumed by the module (spec §6).
`points_values` yields `none` off terminal states, matching the Python
engine returning `None` there. -/
structure Board (σ : Type) where
  current_player : σ → Nat
  legal_actions : σ → List Act
  next_state : σ → Act → σ
  is_ended : σ → Bool
  points_values : σ → Option (Nat → Int)

/-- Modelled from the spec: `mcts_node.py` is not among the sources.  §3 "Tree
Node" gives the fields: `parent` (back-reference; `none` at the root),
`parent_action` (the action that produced the node), `child_nodes` (mapping
action → child, modelled as an insertion-ordered association list of node
ids), `untried_actions` (stack of legal actions not yet expanded), and the
counters `visits` and `wins`. -/
structure MCTSNode where
  parent : Option Nat
  parent_action : Option Act
  child_nodes : List (Act × Nat)
  untried_actions : List Act
  visits : Nat
  wins : Nat
deriving Repr, DecidableEq, Inhabited

/-- The search tree: a store of nodes addressed by index; the root is index 0. -/
abbrev Tree : Type := List MCTSNode

/-- Modelled from the spec: the `MCTSNode(parent, parent_action, action_list)`
constructor stores the action list as the untried actions, an empty child
mapping and zeroed counters (§3 lifecycle). -/
def mkMCTSNode (parent : Option Nat) (parent_action : Option Act)
    (action_list : List Act) : MCTSNode :=
  { parent := parent, parent_action := parent_action, child_nodes := [],
    untried_actions := action_list, visits := 0, wins := 0 }

/-- `num_nodes = 1000`, the module-level simulation budget. -/
def num_nodes : Nat := 1000

/-- `explore_faction = 2.`, the module-level exploration constant. -/
noncomputable def explore_faction : ℝ := 2

/-- The finite part of the UCB score:
`win_rate + explore_faction * sqrt(log(node.parent.visits) / node.visits)`
with `win_rate = wins/visits`, flipped to `1 - wins/visits` for the
opponent's perspective. -/
noncomputable def ucbVal (visits wins parentVisits : Nat) (is_opponent : Bool) : ℝ :=
  let win_rate : ℝ :=
    if is_opponent then 1 - (wins : ℝ) / (visits : ℝ) else (wins : ℝ) / (visits : ℝ)
  win_rate + explore_faction * Real.sqrt (Real.log (parentVisits : ℝ) / (visits : ℝ))

/-- `ucb(node, is_opponent)`: `float('inf')` when the node is unvisited, else
the finite score read off the node's and its parent's counters.  A missing
node or missing parent (the Python code would raise) is given the junk value
`0`; every use site guarantees both exist. -/
noncomputable def ucb (t : Tree) (id : Nat) (is_opponent : Bool) : EReal :=
  match t[id]? with
  | none => 0
  | some n =>
    if n.visits = 0 then ⊤
    else
      match n.parent with
      | none => 0
      | some p =>
        ((ucbVal n.visits n.wins (((t[p]?).map MCTSNode.visits).getD 0)
            is_opponent : ℝ) : EReal)

/-- C1. For every node with a parent, `ucb` is `+∞` iff the node is
unvisited; otherwise it is `win_rate + 2 * sqrt(ln(parent.visits)/visits)`,
where `win_rate` is `wins/visits` for the bot's perspective and
`1 - wins/visits` for the opponent's. -/
theorem ucb_spec (t : Tree) (id p : Nat) (n pn : MCTSNode) (is_opponent : Bool)
    (hn : t[id]? = some n) (hp : n.parent = some p)
    (hpn : t[p]? = some pn) :
    (ucb t id is_opponent = ⊤ ↔ n.visits = 0) ∧
    (n.visits ≠ 0 →
      ucb t id is_opponent =
        (((if is_opponent then 1 - (n.wins : ℝ) / (n.visits : ℝ)
            else (n.wins : ℝ) / (n.visits : ℝ)) +
          2 * Real.sqrt (Real.log (pn.visits : ℝ) / (n.visits : ℝ)) : ℝ) : EReal)) := by
  constructor
  · constructor
    · intro htop
      by_contra hv
      rw [ucb, hn] at htop
      simp only [if_neg hv, hp] at htop
      exact EReal.coe_ne_top _ htop
    · intro hv
      rw [ucb, hn]
      simp [hv]
  · intro hv
    rw [ucb, hn]
    simp only [if_neg hv, hp, hpn]
    rw [ucbVal, explore_faction]
    norm_num

/-- Witness for C1 at a concrete two-node tree: a root with 3 visits and an
unvisited child. -/
theorem ucb_spec_witness :
    let root : MCTSNode := ⟨none, none, [((0,0,0,0), 1)], [], 3, 2⟩
    let child : MCTSNode := ⟨some 0, some (0,0,0,0), [], [(0,0,1,1)], 0, 0⟩
    let t : Tree := [root, child]
    (ucb t 1 false = ⊤ ↔ child.visits = 0) ∧
    (child.visits ≠ 0 →
      ucb t 1 false =
        (((if false then 1 - (child.wins : ℝ) / (child.visits : ℝ)
            else (child.wins : ℝ) / (child.visits : ℝ)) +
          2 * Real.sqrt (Real.log (root.visits : ℝ) / (child.visits : ℝ)) : ℝ) : EReal)) :=
  ucb_spec _ 1 0 _ _ false rfl rfl rfl

/-- The number of copies of an action put into the weighted list by
`rollout`'s loop body: 5 for the centre cell `(1, 1)`, 3 for a corner
(`r in [0, 2] and c in [0, 2]`), 1 for an edge. -/
def actionWeight (a : Act) : Nat :=
  if a.2.2 = ((1 : Nat), (1 : Nat)) then 5
  else if (a.2.2.1 = 0 ∨ a.2.2.1 = 2) ∧ (a.2.2.2 = 0 ∨ a.2.2.2 = 2) then 3
  else 1

/-- The `weighted_actions` list: each legal action in order, repeated
`actionWeight` times (`extend([action] * 5)`, `* 3`, or `append`). -/
def weightedActions : List Act → List Act
  | [] => []
  | a :: rest => List.replicate (actionWeight a) a ++ weightedActions rest

/-- `random.choice(seq)`, modelled as indexing by an external random draw
`r`: a uniform draw over the positions of `seq`. -/
def randomChoice (l : List Act) (r : Nat) : Option Act :=
  l[r % l.length]?

theorem actionWeight_pos (a : Act) : 0 < actionWeight a := by
  rw [actionWeight]
  split
  · norm_num
  · split <;> norm_num

theorem count_eq_one_of_nodup_mem {l : List Act} {a : Act} (hnd : l.Nodup)
    (ha : a ∈ l) : l.count a = 1 := by
  induction l with
  | nil => cases ha
  | cons b rest ih =>
    rw [List.count_cons]
    rcases List.mem_cons.mp ha with rfl | hmem
    · have hnot : a ∉ rest := (List.nodup_cons.mp hnd).1
      rw [List.count_eq_zero.mpr hnot]
      simp
    · have hne : a ≠ b := by rintro rfl; exact (List.nodup_cons.mp hnd).1 hmem
      rw [ih (List.nodup_cons.mp hnd).2 hmem]
      simp [hne, Ne.symm hne]

theorem count_weightedActions (x : Act) (l : List Act) :
    (weightedActions l).count x = l.count x * actionWeight x := by
  induction l with
  | nil => simp [weightedActions]
  | cons a rest ih =>
    rw [weightedActions, List.count_append, ih, List.count_cons]
    rcases eq_or_ne x a with rfl | hne
    · simp [List.count_replicate, Nat.add_mul, Nat.add_comm]
    · simp [List.count_replicate, if_neg hne, if_neg (Ne.symm hne)]

theorem weightedActions_ne_nil {l : List Act} (h : l ≠ []) :
    weightedActions l ≠ [] := by
  match l with
  | [] => exact absurd rfl h
  | a :: rest =>
    rw [weightedActions]
    intro hcontra
    rcases List.append_eq_nil.mp hcontra with ⟨h1, _⟩
    have := actionWeight_pos a
    rw [List.replicate_eq_nil_iff] at h1
    omega

/-- C5. The weighted multiset holds exactly 5 copies of each centre action,
3 of each corner action and 1 of each edge action (for a duplicate-free
legal-action list), the draw picks a position of that multiset uniformly,
and when the single legal action targets the centre the draw returns it
deterministically whatever the random value is. -/
theorem weightedActions_spec (actions : List Act) (hne : actions ≠ [])
    (hnd : actions.Nodup) :
    (∀ a ∈ actions,
      (a.2.2 = ((1 : Nat), (1 : Nat)) → (weightedActions actions).count a = 5) ∧
      ((a.2.2.1 = 0 ∨ a.2.2.1 = 2) ∧ (a.2.2.2 = 0 ∨ a.2.2.2 = 2) →
        (weightedActions actions).count a = 3) ∧
      (¬ a.2.2 = ((1 : Nat), (1 : Nat)) →
        ¬ ((a.2.2.1 = 0 ∨ a.2.2.1 = 2) ∧ (a.2.2.2 = 0 ∨ a.2.2.2 = 2)) →
        (weightedActions actions).count a = 1)) ∧
    (∀ r, (weightedActions actions).length ≠ 0 ∧
      randomChoice (weightedActions actions) r =
        (weightedActions actions)[r % (weightedActions actions).length]?) ∧
    (∀ a₀ : Act, a₀.2.2 = ((1 : Nat), (1 : Nat)) →
      ∀ r, randomChoice (weightedActions [a₀]) r = some a₀) := by
  refine ⟨?_, ?_, ?_⟩
  · intro a ha
    have hcount : (weightedActions actions).count a = actionWeight a := by
      rw [count_weightedActions, count_eq_one_of_nodup_mem hnd ha, one_mul]
    refine ⟨?_, ?_, ?_⟩
    · intro hc; rw [hcount, actionWeight, if_pos hc]
    · intro hc
      have hnc : ¬ a.2.2 = ((1 : Nat), (1 : Nat)) := by
        intro h
        rw [Prod.ext_iff] at h
        rcases hc with ⟨h1, _⟩
        simp only [h.1, h.2] at h1
        omega
      rw [hcount, actionWeight, if_neg hnc, if_pos hc]
    · intro h1 h2; rw [hcount, actionWeight, if_neg h1, if_neg h2]
  · intro r
    refine ⟨?_, rfl⟩
    have := weightedActions_ne_nil hne
    simpa [List.length_eq_zero] using this
  · intro a₀ hc r
    have hw : weightedActions [a₀] = List.replicate 5 a₀ := by
      rw [weightedActions, weightedActions, actionWeight, if_pos hc, List.append_nil]
    rw [randomChoice, hw]
    have hlen : (List.replicate 5 a₀).length = 5 := by simp
    rw [hlen, List.getElem?_replicate, if_pos (Nat.mod_lt _ (by norm_num))]

/-- Witness for C5 on an explicit three-action list: centre, corner, edge. -/
theorem weightedActions_spec_witness :
    ([((0,0,1,1) : Act), (0,0,0,2), (0,0,1,0)] ≠ ([] : List Act)) ∧
    ([((0,0,1,1) : Act), (0,0,0,2), (0,0,1,0)].Nodup) ∧
    ((weightedActions [((0,0,1,1) : Act), (0,0,0,2), (0,0,1,0)]).count (0,0,1,1) = 5 ∧
     (weightedActions [((0,0,1,1) : Act), (0,0,0,2), (0,0,1,0)]).count (0,0,0,2) = 3 ∧
     (weightedActions [((0,0,1,1) : Act), (0,0,0,2), (0,0,1,0)]).count (0,0,1,0) = 1) ∧
    (∀ r, randomChoice (weightedActions [((0,0,1,1) : Act)]) r = some (0,0,1,1)) := by
  have h := weightedActions_spec [((0,0,1,1) : Act), (0,0,0,2), (0,0,1,0)]
    (by decide) (by decide)
  refine ⟨by decide, by decide, ⟨?_, ?_, ?_⟩, ?_⟩
  · exact (h.1 (0,0,1,1) (by decide)).1 (by decide)
  · exact (h.1 (0,0,0,2) (by decide)).2.1 (by decide)
  · exact (h.1 (0,0,1,0) (by decide)).2.2 (by decide) (by decide)
  · exact h.2.2 (0,0,1,1) (by decide)

variable {σ : Type}

/-- `rollout(board, state)`: play heuristic-weighted random moves until the
state is terminal (or the legal-action list is empty).  The `while` loop is
fuel-indexed; `k` counts the draws already consumed from the random stream. -/
def rollout (board : Board σ) (rand : Nat → Nat) : Nat → Nat → σ → σ
  | 0, _, s => s
  | fuel + 1, k, s =>
    if board.is_ended s then s
    else
      let actions := board.legal_actions s
      if actions = [] then s
      else
        let weighted := weightedActions actions
        let action := (randomChoice weighted (rand k)).getD (0, 0, 0, 0)
        rollout board rand fuel (k + 1) (board.next_state s action)

theorem mem_of_mem_weightedActions {x : Act} {l : List Act}
    (h : x ∈ weightedActions l) : x ∈ l := by
  induction l with
  | nil => simp [weightedActions] at h
  | cons a rest ih =>
    rw [weightedActions, List.mem_append] at h
    rcases h with h | h
    · rw [List.eq_of_mem_replicate h]; exact List.mem_cons_self _ _
    · exact List.mem_cons_of_mem _ (ih h)

theorem randomChoice_getD_mem {l : List Act} (r : Nat) (d : Act) (h : l ≠ []) :
    (randomChoice l r).getD d ∈ l := by
  have hlen : 0 < l.length := List.length_pos.mpr h
  have hlt : r % l.length < l.length := Nat.mod_lt _ hlen
  rw [randomChoice, List.getElem?_eq_getElem hlt]
  exact List.getElem_mem hlt

/-- Under the finite-game guarantee (a measure strictly decreasing along every
legal transition) and the "legal actions empty iff terminal" contract, any
fuel at least `μ s` drives the rollout to a terminal state. -/
theorem rollout_ended (board : Board σ) (rand : Nat → Nat) (μ : σ → Nat)
    (Hμ : ∀ s a, a ∈ board.legal_actions s → μ (board.next_state s a) < μ s)
    (Hterm : ∀ s, board.legal_actions s = [] ↔ board.is_ended s = true) :
    ∀ fuel k s, μ s ≤ fuel → board.is_ended (rollout board rand fuel k s) = true := by
  intro fuel
  induction fuel with
  | zero =>
    intro k s hμ
    rw [rollout]
    by_contra hends
    have hle : board.legal_actions s ≠ [] := by
      intro hnil
      exact hends ((Hterm s).mp hnil)
    rcases List.exists_mem_of_ne_nil _ hle with ⟨a, ha⟩
    have := Hμ s a ha
    omega
  | succ fuel ih =>
    intro k s hμ
    rw [rollout]
    split
    · assumption
    · rename_i hends
      dsimp only
      split
      · rename_i hnil
        exact absurd ((Hterm s).mp hnil) hends
      · rename_i hne
        apply ih
        have hwne : weightedActions (board.legal_actions s) ≠ [] :=
          weightedActions_ne_nil hne
        have hmem : (randomChoice (weightedActions (board.legal_actions s))
            (rand k)).getD (0, 0, 0, 0) ∈ board.legal_actions s :=
          mem_of_mem_weightedActions (randomChoice_getD_mem _ _ hwne)
        have := Hμ s _ hmem
        omega

/-- The counter update of one backpropagation step:
`node.visits += 1; node.wins += won`. -/
def bump (won : Bool) (n : MCTSNode) : MCTSNode :=
  { n with visits := n.visits + 1, wins := n.wins + (if won then 1 else 0) }

/-- `backpropagate(node, won)`: walk the parent back-references from `node`
(an id into the store, `none` for Python's `None`) to the root, bumping the
counters of every node on the way.  Fuel-indexed; fuel `t.length` always
suffices on well-formed trees. -/
def backpropagate : Nat → Tree → Option Nat → Bool → Tree
  | 0, t, _, _ => t
  | _ + 1, t, none, _ => t
  | fuel + 1, t, some i, won =>
    match t[i]? with
    | none => t
    | some n => backpropagate fuel (t.set i (bump won n)) n.parent won

/-- The list of node ids visited by `backpropagate`, starting at the given
node and following parent back-references. -/
def backpropPath (t : Tree) : Nat → Option Nat → List Nat
  | 0, _ => []
  | _ + 1, none => []
  | fuel + 1, some i =>
    match t[i]? with
    | none => []
    | some n => i :: backpropPath t fuel n.parent

/-- Parent back-references point strictly downwards in the store. -/
def ParentsLT (t : Tree) : Prop :=
  ∀ i (n : MCTSNode) p, t[i]? = some n → n.parent = some p → p < i

/-- Every node other than the root has a parent. -/
def ParentsSome (t : Tree) : Prop :=
  ∀ i (n : MCTSNode), t[i]? = some n → 0 < i → n.parent.isSome

theorem bump_parent (won : Bool) (n : MCTSNode) : (bump won n).parent = n.parent := rfl

theorem backpropagate_start_none (fuel : Nat) (t : Tree) (won : Bool) :
    backpropagate fuel t none won = t := by
  cases fuel <;> rfl

theorem backpropPath_start_none (t : Tree) (fuel : Nat) :
    backpropPath t fuel none = [] := by
  cases fuel <;> rfl

theorem lt_length_of_getElem?_some {t : Tree} {i : Nat} {n : MCTSNode}
    (h : t[i]? = some n) : i < t.length := by
  by_contra hge
  rw [List.getElem?_eq_none (by omega)] at h
  cases h

theorem backpropPath_node_some {t : Tree} {i : Nat} {n : MCTSNode} (fuel : Nat)
    (h : t[i]? = some n) :
    backpropPath t (fuel + 1) (some i) = i :: backpropPath t fuel n.parent := by
  simp only [backpropPath, h]

theorem backpropPath_node_none {t : Tree} {i : Nat} (fuel : Nat)
    (h : t[i]? = none) : backpropPath t (fuel + 1) (some i) = [] := by
  simp only [backpropPath, h]

theorem backpropagate_node_some {t : Tree} {i : Nat} {n : MCTSNode} (fuel : Nat)
    (won : Bool) (h : t[i]? = some n) :
    backpropagate (fuel + 1) t (some i) won =
      backpropagate fuel (t.set i (bump won n)) n.parent won := by
  simp only [backpropagate, h]

theorem backpropagate_node_none {t : Tree} {i : Nat} (fuel : Nat) (won : Bool)
    (h : t[i]? = none) : backpropagate (fuel + 1) t (some i) won = t := by
  simp only [backpropagate, h]

theorem backpropPath_set_bump (t : Tree) (i : Nat) (n : MCTSNode) (won : Bool)
    (hn : t[i]? = some n) :
    ∀ fuel st, backpropPath (t.set i (bump won n)) fuel st = backpropPath t fuel st := by
  intro fuel
  induction fuel with
  | zero => intro st; rfl
  | succ fuel ih =>
    intro st
    match st with
    | none => rfl
    | some j =>
      rcases eq_or_ne j i with rfl | hne
      · have hj : j < t.length := lt_length_of_getElem?_some hn
        have hset : (t.set j (bump won n))[j]? = some (bump won n) :=
          List.getElem?_set_eq_of_lt _ hj
        rw [backpropPath_node_some fuel hset, backpropPath_node_some fuel hn,
          bump_parent, ih]
      · have hset : (t.set i (bump won n))[j]? = t[j]? :=
          List.getElem?_set_ne hne.symm
        match hm : t[j]? with
        | none =>
          rw [backpropPath_node_none fuel (hset.trans hm),
            backpropPath_node_none fuel hm]
        | some m =>
          rw [backpropPath_node_some fuel (hset.trans hm),
            backpropPath_node_some fuel hm, ih]

theorem parentsLT_set_bump {t : Tree} {i : Nat} {n : MCTSNode} {won : Bool}
    (hpl : ParentsLT t) (hn : t[i]? = some n) :
    ParentsLT (t.set i (bump won n)) := by
  intro j m p hm hp
  rcases eq_or_ne j i with rfl | hne
  · rw [List.getElem?_set_eq_of_lt _ (lt_length_of_getElem?_some hn)] at hm
    cases hm
    exact hpl j n p hn hp
  · rw [List.getElem?_set_ne hne.symm] at hm
    exact hpl j m p hm hp

theorem mem_backpropPath_le {t : Tree} (hpl : ParentsLT t) :
    ∀ fuel p j, j ∈ backpropPath t fuel (some p) → j ≤ p := by
  intro fuel
  induction fuel with
  | zero => intro p j hj; cases hj
  | succ fuel ih =>
    intro p j hj
    match hp : t[p]? with
    | none => rw [backpropPath_node_none fuel hp] at hj; cases hj
    | some n =>
      rw [backpropPath_node_some fuel hp] at hj
      rcases List.mem_cons.mp hj with rfl | hj
      · exact le_refl _
      · match hq : n.parent with
        | none => rw [hq, backpropPath_start_none] at hj; cases hj
        | some q =>
          rw [hq] at hj
          have := ih q j hj
          have := hpl p n q hp hq
          omega

theorem backpropPath_nodup {t : Tree} (hpl : ParentsLT t) :
    ∀ fuel st, (backpropPath t fuel st).Nodup := by
  intro fuel
  induction fuel with
  | zero => intro st; exact List.nodup_nil
  | succ fuel ih =>
    intro st
    match st with
    | none => exact List.nodup_nil
    | some i =>
      match hn : t[i]? with
      | none => rw [backpropPath_node_none fuel hn]; exact List.nodup_nil
      | some n =>
        rw [backpropPath_node_some fuel hn]
        refine List.nodup_cons.mpr ⟨?_, ih n.parent⟩
        intro hmem
        match hq : n.parent with
        | none => rw [hq, backpropPath_start_none] at hmem; cases hmem
        | some q =>
          rw [hq] at hmem
          have := mem_backpropPath_le hpl fuel q i hmem
          have := hpl i n q hn hq
          omega

theorem zero_mem_backpropPath {t : Tree} (hpl : ParentsLT t) (hps : ParentsSome t) :
    ∀ fuel i, i < t.length → i < fuel → 0 ∈ backpropPath t fuel (some i) := by
  intro fuel
  induction fuel with
  | zero => intro i _ h; omega
  | succ fuel ih =>
    intro i hi hfuel
    have hn : t[i]? = some t[i] := List.getElem?_eq_getElem hi
    rw [backpropPath_node_some fuel hn]
    rcases Nat.eq_zero_or_pos i with rfl | hpos
    · exact List.mem_cons_self _ _
    · have hsome := hps i _ hn hpos
      match hq : (t[i]).parent with
      | none => rw [hq] at hsome; cases hsome
      | some q =>
        have hqi := hpl i _ q hn hq
        exact List.mem_cons_of_mem _ (ih q (by omega) (by omega))

/-- Pointwise effect of `backpropagate`: the nodes on the walked path get
their counters bumped, every other node is untouched. -/
theorem backpropagate_getElem? (won : Bool) :
    ∀ fuel (t : Tree) (st : Option Nat), ParentsLT t →
      (backpropagate fuel t st won).length = t.length ∧
      ∀ j, (backpropagate fuel t st won)[j]? =
        if j ∈ backpropPath t fuel st then (t[j]?).map (bump won) else t[j]? := by
  intro fuel
  induction fuel with
  | zero =>
    intro t st _
    refine ⟨rfl, fun j => ?_⟩
    have : backpropPath t 0 st = [] := by cases st <;> rfl
    rw [this]
    simp [backpropagate]
  | succ fuel ih =>
    intro t st hpl
    match st with
    | none =>
      refine ⟨rfl, fun j => ?_⟩
      rw [backpropagate_start_none, backpropPath_start_none]
      simp
    | some i =>
      match hn : t[i]? with
      | none =>
        rw [backpropagate_node_none fuel won hn, backpropPath_node_none fuel hn]
        exact ⟨rfl, fun j => by simp⟩
      | some n =>
        rw [backpropagate_node_some fuel won hn, backpropPath_node_some fuel hn]
        have hi : i < t.length := lt_length_of_getElem?_some hn
        have hpl' : ParentsLT (t.set i (bump won n)) := parentsLT_set_bump hpl hn
        obtain ⟨ihlen, ihget⟩ := ih (t.set i (bump won n)) n.parent hpl'
        constructor
        · rw [ihlen, List.length_set]
        · intro j
          rw [ihget j, backpropPath_set_bump t i n won hn]
          have hnotail : i ∉ backpropPath t fuel n.parent := by
            intro hmem
            match hq : n.parent with
            | none => rw [hq, backpropPath_start_none] at hmem; cases hmem
            | some q =>
              rw [hq] at hmem
              have := mem_backpropPath_le hpl fuel q i hmem
              have := hpl i n q hn hq
              omega
          rcases eq_or_ne j i with rfl | hne
          · rw [if_neg hnotail, if_pos (List.mem_cons_self _ _), hn]
            rw [List.getElem?_set_eq_of_lt _ hi]
            rfl
          · rw [List.getElem?_set_ne hne.symm]
            rcases Decidable.em (j ∈ backpropPath t fuel n.parent) with hmem | hmem
            · rw [if_pos hmem, if_pos (List.mem_cons_of_mem _ hmem)]
            · rw [if_neg hmem, if_neg (by
                intro hc
                rcases List.mem_cons.mp hc with rfl | hc
                · exact hne rfl
                · exact hmem hc)]

/-- Executable check of the two parent-pointer invariants, for concrete
trees: the root (index 0) has no parent, every other node has a parent with
a strictly smaller index. -/
def checkParents (t : Tree) : Bool :=
  (List.range t.length).all (fun i =>
    match t[i]? with
    | none => true
    | some n =>
      match n.parent with
      | none => i == 0
      | some p => decide (p < i))

theorem checkParents_sound {t : Tree} (h : checkParents t = true) :
    ParentsLT t ∧ ParentsSome t := by
  rw [checkParents, List.all_eq_true] at h
  constructor
  · intro i n p hn hp
    have hi : i < t.length := lt_length_of_getElem?_some hn
    have := h i (List.mem_range.mpr hi)
    simp only [hn, hp] at this
    exact of_decide_eq_true this
  · intro i n hn hpos
    have hi : i < t.length := lt_length_of_getElem?_some hn
    have := h i (List.mem_range.mpr hi)
    match hq : n.parent with
    | some p => rfl
    | none =>
      simp only [hn, hq, beq_iff_eq] at this
      omega

/-- C6. `backpropagate` walks the parent chain from the given node to the
root inclusive, adds 1 to `visits` and the 0/1 outcome to `wins` at every
node on that chain (which is duplicate-free, contains the starting node and
the root), leaves every node off the chain unchanged, and is the identity
when handed `None`. -/
theorem backpropagate_spec (t : Tree) (nid : Nat) (won : Bool)
    (hpl : ParentsLT t) (hps : ParentsSome t) (hnid : nid < t.length) :
    (∀ fuel, backpropagate fuel t none won = t) ∧
    (backpropagate t.length t (some nid) won).length = t.length ∧
    (backpropPath t t.length (some nid)).Nodup ∧
    nid ∈ backpropPath t t.length (some nid) ∧
    0 ∈ backpropPath t t.length (some nid) ∧
    (∀ j (n : MCTSNode), t[j]? = some n →
      j ∈ backpropPath t t.length (some nid) →
      (backpropagate t.length t (some nid) won)[j]? =
        some { n with visits := n.visits + 1,
                      wins := n.wins + (if won then 1 else 0) }) ∧
    (∀ j, j ∉ backpropPath t t.length (some nid) →
      (backpropagate t.length t (some nid) won)[j]? = t[j]?) := by
  obtain ⟨hlen, hget⟩ := backpropagate_getElem? won t.length t (some nid) hpl
  refine ⟨fun fuel => backpropagate_start_none fuel t won, hlen,
    backpropPath_nodup hpl _ _, ?_, zero_mem_backpropPath hpl hps _ nid hnid hnid,
    ?_, ?_⟩
  · obtain ⟨m, hm⟩ : ∃ m, t.length = m + 1 := ⟨t.length - 1, by omega⟩
    rw [hm, backpropPath_node_some m (List.getElem?_eq_getElem hnid)]
    exact List.mem_cons_self _ _
  · intro j n hj hmem
    rw [hget j, if_pos hmem, hj]
    rfl
  · intro j hmem
    rw [hget j, if_neg hmem]

/-- Witness for C6 on a concrete three-node tree (root with two children),
backpropagating a win from child 1: the chain is `[1, 0]`, both bumped,
child 2 untouched. -/
theorem backpropagate_spec_witness :
    let t : Tree :=
      [⟨none, none, [((0,0,0,0), 1), ((0,0,1,1), 2)], [], 5, 2⟩,
       ⟨some 0, some (0,0,0,0), [], [(0,0,2,2)], 3, 1⟩,
       ⟨some 0, some (0,0,1,1), [], [], 2, 1⟩]
    (∀ fuel, backpropagate fuel t none true = t) ∧
    (backpropagate t.length t (some 1) true).length = t.length ∧
    (backpropPath t t.length (some 1)).Nodup ∧
    1 ∈ backpropPath t t.length (some 1) ∧
    0 ∈ backpropPath t t.length (some 1) ∧
    (∀ j (n : MCTSNode), t[j]? = some n →
      j ∈ backpropPath t t.length (some 1) →
      (backpropagate t.length t (some 1) true)[j]? =
        some { n with visits := n.visits + 1,
                      wins := n.wins + (if true then 1 else 0) }) ∧
    (∀ j, j ∉ backpropPath t t.length (some 1) →
      (backpropagate t.length t (some 1) true)[j]? = t[j]?) :=
  backpropagate_spec _ 1 true
    (checkParents_sound (by decide)).1
    (checkParents_sound (by decide)).2
    (by decide)

open Classical in
/-- Python's `max(node.child_nodes.values(), key=ucb ...)`: scan the children
left to right, replacing the incumbent only on a strictly larger score, so
the first maximal child wins. -/
noncomputable def bestChild (t : Tree) (is_opponent : Bool) (c : Act × Nat)
    (cs : List (Act × Nat)) : Act × Nat :=
  cs.foldl (fun best y =>
    if ucb t best.2 is_opponent < ucb t y.2 is_opponent then y else best) c

/-- `traverse_nodes(node, board, state, bot_identity)`: while the node has no
untried actions and has children, move to the child maximizing `ucb` (the
opponent flag compares the bot to the player to move at the pre-transition
state) and advance the state by the chosen child's `parent_action`. -/
noncomputable def traverse_nodes (board : Board σ) (t : Tree) (bot_identity : Nat) :
    Nat → Nat → σ → Nat × σ
  | 0, id, state => (id, state)
  | fuel + 1, id, state =>
    match t[id]? with
    | none => (id, state)
    | some n =>
      if n.untried_actions = [] ∧ n.child_nodes ≠ [] then
        match n.child_nodes with
        | [] => (id, state)
        | c :: cs =>
          let chosen := bestChild t (bot_identity != board.current_player state) c cs
          traverse_nodes board t bot_identity fuel chosen.2
            (board.next_state state
              (((t[chosen.2]?).bind MCTSNode.parent_action).getD chosen.1))
      else (id, state)

/-- `expand_leaf(node, board, state)`: pop one untried action, compute the
resulting state, create the child node from the legal actions there, and
register it under the popped action.  `none` models the exceptions Python
would raise on a missing node or an empty untried list. -/
def expand_leaf (board : Board σ) (t : Tree) (nid : Nat) (state : σ) :
    Option (Tree × Nat × σ) :=
  match t[nid]? with
  | none => none
  | some n =>
    match n.untried_actions with
    | [] => none
    | action :: rest =>
      let next_state := board.next_state state action
      let child_node := mkMCTSNode (some nid) (some action)
        (board.legal_actions next_state)
      let t' := (t.set nid
        { n with untried_actions := rest,
                 child_nodes := n.child_nodes ++ [(action, t.length)] }) ++ [child_node]
      some (t', t.length, next_state)

/-- `is_win(board, state, identity_of_bot)`: look up the outcome; `none`
models the `assert outcome is not None` failing on a non-terminal state. -/
def is_win (board : Board σ) (state : σ) (identity_of_bot : Nat) : Option Bool :=
  match board.points_values state with
  | none => none
  | some outcome => some (outcome identity_of_bot == 1)

/-- The visit counter of node `i`, 0 if the id is out of range. -/
def visitsOf (t : Tree) (i : Nat) : Nat :=
  ((t[i]?).map MCTSNode.visits).getD 0

/-- `get_best_action(root_node)`:
`max(root_node.child_nodes.items(), key=lambda item: item[1].visits)[0]`,
ties broken by the first maximal entry; `none` models the exception on an
empty children mapping. -/
def get_best_action (t : Tree) : Option Act :=
  match t[0]? with
  | none => none
  | some root =>
    match root.child_nodes with
    | [] => none
    | c :: cs =>
      some (cs.foldl (fun best item =>
        if visitsOf t best.2 < visitsOf t item.2 then item else best) c).1

/-- One iteration of `think`'s loop: traverse, expand if the reached node has
an untried action, roll out from the relevant state, backpropagate the
outcome.  `none` records the assertion in `is_win` (or an impossible
expansion) firing. -/
noncomputable def think_step (board : Board σ) (bot_identity : Nat)
    (current_state : σ) (rand : Nat → Nat) (rfuel : Nat) (t : Tree) : Option Tree :=
  let ns := traverse_nodes board t bot_identity t.length 0 current_state
  let nid := ns.1
  let state := ns.2
  if ((t[nid]?).map MCTSNode.untried_actions).getD [] ≠ [] then
    match expand_leaf board t nid state with
    | none => none
    | some (t', cid, cstate) =>
      let final_state := rollout board rand rfuel 0 cstate
      match is_win board final_state bot_identity with
      | none => none
      | some won => some (backpropagate t'.length t' (some cid) won)
  else
    let final_state := rollout board rand rfuel 0 state
    match is_win board final_state bot_identity with
    | none => none
    | some won => some (backpropagate t.length t (some nid) won)

/-- The tree after `k` iterations of `think`'s loop, starting from the root
node built on the current state's legal actions.  Iteration `k` consumes the
random stream `rand k`. -/
noncomputable def think_loop (board : Board σ) (bot_identity : Nat)
    (current_state : σ) (rand : Nat → Nat → Nat) (rfuel : Nat) : Nat → Option Tree
  | 0 => some [mkMCTSNode none none (board.legal_actions current_state)]
  | k + 1 =>
    (think_loop board bot_identity current_state rand rfuel k).bind
      (think_step board bot_identity current_state (rand k) rfuel)

/-- `think(board, current_state)`: run `num_nodes` iterations and read the
most-visited root child. -/
noncomputable def think (board : Board σ) (current_state : σ)
    (rand : Nat → Nat → Nat) (rfuel : Nat) : Option Act :=
  (think_loop board (board.current_player current_state) current_state rand rfuel
    num_nodes).bind get_best_action

/-- The pointwise effect of one expansion on the store. -/
theorem expand_leaf_effect (board : Board σ) (t : Tree) (nid : Nat) (state : σ)
    (n : MCTSNode) (action : Act) (rest : List Act)
    (hn : t[nid]? = some n) (hu : n.untried_actions = action :: rest) :
    ∃ t', expand_leaf board t nid state =
        some (t', t.length, board.next_state state action) ∧
      t'.length = t.length + 1 ∧
      t'[t.length]? = some (mkMCTSNode (some nid) (some action)
        (board.legal_actions (board.next_state state action))) ∧
      t'[nid]? = some { n with untried_actions := rest,
                               child_nodes := n.child_nodes ++ [(action, t.length)] } ∧
      (∀ j, j ≠ nid → j ≠ t.length → t'[j]? = t[j]?) := by
  have hnid : nid < t.length := lt_length_of_getElem?_some hn
  have hEL : expand_leaf board t nid state =
      some ((t.set nid
          { n with untried_actions := rest,
                   child_nodes := n.child_nodes ++ [(action, t.length)] }) ++
        [mkMCTSNode (some nid) (some action)
          (board.legal_actions (board.next_state state action))],
        t.length, board.next_state state action) := by
    simp only [expand_leaf, hn, hu]
  refine ⟨_, hEL, ?_, ?_, ?_, ?_⟩
  · simp
  · rw [List.getElem?_append_right (by simp)]
    simp
  · rw [List.getElem?_append, if_pos (by simpa using hnid)]
    exact List.getElem?_set_eq_of_lt _ hnid
  · intro j hjn hjl
    rcases Nat.lt_or_ge j t.length with hj | hj
    · rw [List.getElem?_append, if_pos (by simpa using hj),
        List.getElem?_set_ne hjn.symm]
    · have hj' : t.length < j := by omega
      rw [List.getElem?_eq_none (by simp; omega), List.getElem?_eq_none (by omega)]

/-- C3. Expansion pops exactly one action off the untried list, computes the
next state, registers a fresh child (whose untried actions are the legal
actions of that state) under the popped action, and returns the child and
its state; the driver skips expansion entirely — simulating from the
traversed node's own state — when that node has no untried actions. -/
theorem expand_leaf_spec (board : Board σ) (t : Tree) (nid : Nat) (state : σ)
    (n : MCTSNode) (action : Act) (rest : List Act)
    (hn : t[nid]? = some n) (hu : n.untried_actions = action :: rest) :
    (∃ t', expand_leaf board t nid state =
        some (t', t.length, board.next_state state action) ∧
      t'.length = t.length + 1 ∧
      t'[t.length]? = some (mkMCTSNode (some nid) (some action)
        (board.legal_actions (board.next_state state action))) ∧
      t'[nid]? = some { n with untried_actions := rest,
                               child_nodes := n.child_nodes ++ [(action, t.length)] } ∧
      (∀ j, j ≠ nid → j ≠ t.length → t'[j]? = t[j]?)) ∧
    (∀ (bot : Nat) (cs0 : σ) (rand : Nat → Nat) (rfuel : Nat) (m : MCTSNode),
      t[(traverse_nodes board t bot t.length 0 cs0).1]? = some m →
      m.untried_actions = [] →
      think_step board bot cs0 rand rfuel t =
        match is_win board
          (rollout board rand rfuel 0 (traverse_nodes board t bot t.length 0 cs0).2)
          bot with
        | none => none
        | some won =>
          some (backpropagate t.length t
            (some (traverse_nodes board t bot t.length 0 cs0).1) won)) := by
  constructor
  · exact expand_leaf_effect board t nid state n action rest hn hu
  · intro bot cs0 rand rfuel m hm hmu
    rw [think_step]
    dsimp only
    split
    · rename_i hcond
      rw [hm] at hcond
      simp [hmu] at hcond
    · rfl

/-- A tiny countdown game used by the concrete witnesses: state `s` counts
moves remaining; the sole legal action targets the centre cell; player 1 is
to move on even counts; player 1 scores 1 at the end. -/
def demoBoard : Board Nat where
  current_player s := if s % 2 = 0 then 1 else 2
  legal_actions s := if s = 0 then [] else [(0, 0, 1, 1)]
  next_state s _ := s - 1
  is_ended s := s == 0
  points_values s := if s = 0 then some (fun p => if p = 1 then 1 else 0) else none

/-- Witness for C3: expanding the singleton untried action of a fresh root
on the countdown board. -/
theorem expand_leaf_spec_witness :
    let t : Tree := [mkMCTSNode none none [(0,0,1,1)]]
    let n : MCTSNode := mkMCTSNode none none [(0,0,1,1)]
    (∃ t', expand_leaf demoBoard t 0 2 =
        some (t', t.length, demoBoard.next_state 2 (0,0,1,1)) ∧
      t'.length = t.length + 1 ∧
      t'[t.length]? = some (mkMCTSNode (some 0) (some (0,0,1,1))
        (demoBoard.legal_actions (demoBoard.next_state 2 (0,0,1,1)))) ∧
      t'[0]? = some { n with untried_actions := [],
                             child_nodes := n.child_nodes ++ [((0,0,1,1), t.length)] } ∧
      (∀ j, j ≠ 0 → j ≠ t.length → t'[j]? = t[j]?)) ∧
    (∀ (bot : Nat) (cs0 : Nat) (rand : Nat → Nat) (rfuel : Nat) (m : MCTSNode),
      t[(traverse_nodes demoBoard t bot t.length 0 cs0).1]? = some m →
      m.untried_actions = [] →
      think_step demoBoard bot cs0 rand rfuel t =
        match is_win demoBoard
          (rollout demoBoard rand rfuel 0
            (traverse_nodes demoBoard t bot t.length 0 cs0).2) bot with
        | none => none
        | some won =>
          some (backpropagate t.length t
            (some (traverse_nodes demoBoard t bot t.length 0 cs0).1) won)) :=
  expand_leaf_spec demoBoard _ 0 2 _ (0,0,1,1) [] rfl rfl

/-- Children ids point strictly upwards in the store and stay in range. -/
def ChildrenLT (t : Tree) : Prop :=
  ∀ i (n : MCTSNode) a c, t[i]? = some n → (a, c) ∈ n.child_nodes →
    i < c ∧ c < t.length

theorem bestChild_mem (t : Tree) (is_opponent : Bool) :
    ∀ (cs : List (Act × Nat)) (c : Act × Nat),
      bestChild t is_opponent c cs ∈ c :: cs := by
  intro cs
  induction cs with
  | nil => intro c; rw [bestChild, List.foldl_nil]; exact List.mem_cons_self _ _
  | cons z zs ih =>
    intro c
    rw [bestChild, List.foldl_cons, ← bestChild]
    rcases List.mem_cons.mp (ih _) with h | h
    · rw [h]
      split
      · exact List.mem_cons_of_mem _ (List.mem_cons_self _ _)
      · exact List.mem_cons_self _ _
    · exact List.mem_cons_of_mem _ (List.mem_cons_of_mem _ h)

theorem bestChild_le (t : Tree) (is_opponent : Bool) :
    ∀ (cs : List (Act × Nat)) (c : Act × Nat), ∀ y ∈ c :: cs,
      ucb t y.2 is_opponent ≤ ucb t (bestChild t is_opponent c cs).2 is_opponent := by
  intro cs
  induction cs with
  | nil =>
    intro c y hy
    rw [bestChild, List.foldl_nil]
    rcases List.mem_cons.mp hy with rfl | h
    · exact le_refl _
    · cases h
  | cons z zs ih =>
    intro c y hy
    rw [bestChild, List.foldl_cons, ← bestChild]
    have hinit : ∀ x : Act × Nat,
        ucb t x.2 is_opponent ≤ ucb t (bestChild t is_opponent x zs).2 is_opponent :=
      fun x => ih x x (List.mem_cons_self _ _)
    rcases List.mem_cons.mp hy with rfl | hy'
    · refine le_trans ?_ (hinit _)
      split
      · rename_i hlt; exact le_of_lt hlt
      · exact le_refl _
    rcases List.mem_cons.mp hy' with rfl | hzs
    · refine le_trans ?_ (hinit _)
      split
      · exact le_refl _
      · rename_i hnlt; exact le_of_not_lt hnlt
    · exact ih _ y (List.mem_cons_of_mem _ hzs)

theorem traverse_zero (board : Board σ) (t : Tree) (bot id : Nat) (state : σ) :
    traverse_nodes board t bot 0 id state = (id, state) := rfl

theorem traverse_oob (board : Board σ) (t : Tree) (bot fuel id : Nat) (state : σ)
    (h : t[id]? = none) :
    traverse_nodes board t bot (fuel + 1) id state = (id, state) := by
  simp only [traverse_nodes, h]

theorem traverse_stop (board : Board σ) (t : Tree) (bot : Nat) (fuel id : Nat)
    (state : σ) (n : MCTSNode) (hn : t[id]? = some n)
    (hstop : n.untried_actions ≠ [] ∨ n.child_nodes = []) :
    traverse_nodes board t bot fuel id state = (id, state) := by
  cases fuel with
  | zero => rfl
  | succ fuel =>
    simp only [traverse_nodes, hn]
    rw [if_neg (by tauto)]

theorem traverse_cont (board : Board σ) (t : Tree) (bot : Nat) (fuel id : Nat)
    (state : σ) (n : MCTSNode) (c : Act × Nat) (cs : List (Act × Nat))
    (hn : t[id]? = some n) (hu : n.untried_actions = [])
    (hc : n.child_nodes = c :: cs) :
    traverse_nodes board t bot (fuel + 1) id state =
      traverse_nodes board t bot fuel
        (bestChild t (bot != board.current_player state) c cs).2
        (board.next_state state
          (((t[(bestChild t (bot != board.current_player state) c cs).2]?).bind
            MCTSNode.parent_action).getD
            (bestChild t (bot != board.current_player state) c cs).1)) := by
  simp only [traverse_nodes, hn, hc, hu]
  rw [if_pos (by simp)]

theorem traverse_result_lt {board : Board σ} {t : Tree} {bot : Nat}
    (hcl : ChildrenLT t) :
    ∀ fuel id state, id < t.length →
      (traverse_nodes board t bot fuel id state).1 < t.length := by
  intro fuel
  induction fuel with
  | zero => intro id state h; exact h
  | succ fuel ih =>
    intro id state hid
    have hn : t[id]? = some t[id] := List.getElem?_eq_getElem hid
    by_cases hcond : (t[id]).untried_actions = [] ∧ (t[id]).child_nodes ≠ []
    · match hc : (t[id]).child_nodes with
      | [] => exact absurd hc hcond.2
      | c :: cs =>
        rw [traverse_cont board t bot fuel id state _ c cs hn hcond.1 hc]
        have hmem : ((bestChild t (bot != board.current_player state) c cs).1,
            (bestChild t (bot != board.current_player state) c cs).2) ∈
              (t[id]).child_nodes := by
          rw [Prod.mk.eta, hc]
          exact bestChild_mem t _ cs c
        have := hcl id _ _ _ hn hmem
        exact ih _ _ this.2
    · rw [traverse_stop board t bot (fuel + 1) id state _ hn (by tauto)]
      exact hid

theorem traverse_post {board : Board σ} {t : Tree} {bot : Nat}
    (hcl : ChildrenLT t) :
    ∀ fuel id state, t.length ≤ fuel + id →
      ∀ (n' : MCTSNode), t[(traverse_nodes board t bot fuel id state).1]? = some n' →
        n'.untried_actions ≠ [] ∨ n'.child_nodes = [] := by
  intro fuel
  induction fuel with
  | zero =>
    intro id state hle n' hn'
    rw [traverse_zero] at hn'
    have := lt_length_of_getElem?_some hn'
    omega
  | succ fuel ih =>
    intro id state hle n' hn'
    rcases Nat.lt_or_ge id t.length with hid | hid
    · have hn : t[id]? = some t[id] := List.getElem?_eq_getElem hid
      by_cases hcond : (t[id]).untried_actions = [] ∧ (t[id]).child_nodes ≠ []
      · match hc : (t[id]).child_nodes with
        | [] => exact absurd hc hcond.2
        | c :: cs =>
          rw [traverse_cont board t bot fuel id state _ c cs hn hcond.1 hc] at hn'
          have hmem : ((bestChild t (bot != board.current_player state) c cs).1,
              (bestChild t (bot != board.current_player state) c cs).2) ∈
                (t[id]).child_nodes := by
            rw [Prod.mk.eta, hc]
            exact bestChild_mem t _ cs c
          have hlt := hcl id _ _ _ hn hmem
          exact ih _ _ (by omega) n' hn'
      · rw [traverse_stop board t bot (fuel + 1) id state _ hn (by tauto)] at hn'
        rw [hn] at hn'
        cases hn'
        tauto
    · rw [traverse_oob board t bot fuel id state
        (List.getElem?_eq_none hid)] at hn'
      have := lt_length_of_getElem?_some hn'
      omega

/-- Executable check of the child-id invariant, for concrete trees. -/
def checkChildren (t : Tree) : Bool :=
  (List.range t.length).all (fun i =>
    match t[i]? with
    | none => true
    | some n => n.child_nodes.all (fun ac =>
        decide (i < ac.2) && decide (ac.2 < t.length)))

theorem checkChildren_sound {t : Tree} (h : checkChildren t = true) :
    ChildrenLT t := by
  rw [checkChildren, List.all_eq_true] at h
  intro i n a c hn hmem
  have hi : i < t.length := lt_length_of_getElem?_some hn
  have := h i (List.mem_range.mpr hi)
  simp only [hn, List.all_eq_true] at this
  have := this (a, c) hmem
  simp only [Bool.and_eq_true, decide_eq_true_eq] at this
  exact this

/-- C2. Tree descent: a node with an untried action or no children is
returned unchanged with its state; otherwise one step moves to the child
maximizing the UCB score (the opponent flag compares the bot's identity with
the player to move at the pre-transition state) and advances the state by
that child's `parent_action`; the selected child is one of the children and
maximizes the score among them; and, with fuel covering the store, the
returned node has an untried action or no children. -/
theorem traverse_nodes_spec (board : Board σ) (t : Tree) (bot : Nat) :
    (∀ fuel id state (n : MCTSNode), t[id]? = some n →
      n.untried_actions ≠ [] ∨ n.child_nodes = [] →
      traverse_nodes board t bot fuel id state = (id, state)) ∧
    (∀ fuel id state (n : MCTSNode) (c : Act × Nat) (cs : List (Act × Nat)),
      t[id]? = some n → n.untried_actions = [] → n.child_nodes = c :: cs →
      traverse_nodes board t bot (fuel + 1) id state =
        traverse_nodes board t bot fuel
          (bestChild t (bot != board.current_player state) c cs).2
          (board.next_state state
            (((t[(bestChild t (bot != board.current_player state) c cs).2]?).bind
              MCTSNode.parent_action).getD
              (bestChild t (bot != board.current_player state) c cs).1))) ∧
    (∀ (is_opponent : Bool) (c : Act × Nat) (cs : List (Act × Nat)),
      bestChild t is_opponent c cs ∈ c :: cs ∧
      ∀ y ∈ c :: cs,
        ucb t y.2 is_opponent ≤ ucb t (bestChild t is_opponent c cs).2 is_opponent) ∧
    (ChildrenLT t →
      ∀ fuel id state, t.length ≤ fuel + id →
        ∀ (n' : MCTSNode),
          t[(traverse_nodes board t bot fuel id state).1]? = some n' →
          n'.untried_actions ≠ [] ∨ n'.child_nodes = []) :=
  ⟨fun fuel id state n hn hstop => traverse_stop board t bot fuel id state n hn hstop,
   fun fuel id state n c cs hn hu hc => traverse_cont board t bot fuel id state n c cs hn hu hc,
   fun is_opponent c cs => ⟨bestChild_mem t is_opponent cs c, bestChild_le t is_opponent cs c⟩,
   fun hcl fuel id state hle n' hn' => traverse_post hcl fuel id state hle n' hn'⟩

/-- Witness for C2 on a two-node tree over the countdown board: the root
still has an untried action, so traversal stops at once; and the
postcondition holds for the reached node. -/
theorem traverse_nodes_spec_witness :
    let t : Tree := [⟨none, none, [((0,0,1,1), 1)], [(0,0,0,0)], 1, 1⟩,
                     ⟨some 0, some (0,0,1,1), [], [], 1, 1⟩]
    traverse_nodes demoBoard t 1 t.length 0 5 = (0, 5) ∧
    (∀ (n' : MCTSNode), t[(traverse_nodes demoBoard t 1 t.length 0 5).1]? = some n' →
      n'.untried_actions ≠ [] ∨ n'.child_nodes = []) := by
  have h := traverse_nodes_spec demoBoard
    [⟨none, none, [((0,0,1,1), 1)], [(0,0,0,0)], 1, 1⟩,
     ⟨some 0, some (0,0,1,1), [], [], 1, 1⟩] 1
  exact ⟨h.1 2 0 5 _ rfl (Or.inl (by decide)),
    h.2.2.2 (checkChildren_sound (by decide)) 2 0 5 (by decide)⟩

/-- The left-to-right maximum scan performed by `get_best_action`'s `max`:
the incumbent is replaced only on a strictly larger key. -/
def maxScan (v : Act × Nat → Nat) (c : Act × Nat) (cs : List (Act × Nat)) :
    Act × Nat :=
  cs.foldl (fun best item => if v best < v item then item else best) c

theorem maxScan_spec (v : Act × Nat → Nat) :
    ∀ (cs : List (Act × Nat)) (c : Act × Nat),
      maxScan v c cs ∈ c :: cs ∧
      (∀ y ∈ c :: cs, v y ≤ v (maxScan v c cs)) ∧
      (c :: cs).find? (fun y => decide (v (maxScan v c cs) ≤ v y)) =
        some (maxScan v c cs) := by
  intro cs
  induction cs with
  | nil =>
    intro c
    refine ⟨List.mem_cons_self _ _, ?_, ?_⟩
    · intro y hy
      rcases List.mem_cons.mp hy with rfl | h
      · exact le_refl _
      · cases h
    · rw [maxScan, List.foldl_nil, List.find?_cons_of_pos _ (by simp)]
  | cons z zs ih =>
    intro c
    have hfold : maxScan v c (z :: zs) = maxScan v (if v c < v z then z else c) zs := by
      rw [maxScan, List.foldl_cons, maxScan]
    by_cases hcz : v c < v z
    · rw [if_pos hcz] at hfold
      obtain ⟨ihmem, ihmax, ihfind⟩ := ih z
      refine ⟨?_, ?_, ?_⟩
      · rw [hfold]
        exact List.mem_cons_of_mem _ ihmem
      · intro y hy
        rw [hfold]
        rcases List.mem_cons.mp hy with rfl | hy'
        · exact le_trans (le_of_lt hcz) (ihmax z (List.mem_cons_self _ _))
        · exact ihmax y hy'
      · rw [hfold]
        have hcfalse : ¬ (v (maxScan v z zs) ≤ v c) := by
          have := ihmax z (List.mem_cons_self _ _)
          omega
        rw [List.find?_cons_of_neg _ (by simpa using hcfalse)]
        exact ihfind
    · rw [if_neg hcz] at hfold
      obtain ⟨ihmem, ihmax, ihfind⟩ := ih c
      refine ⟨?_, ?_, ?_⟩
      · rw [hfold]
        rcases List.mem_cons.mp ihmem with h | h
        · rw [h]; exact List.mem_cons_self _ _
        · exact List.mem_cons_of_mem _ (List.mem_cons_of_mem _ h)
      · intro y hy
        rw [hfold]
        rcases List.mem_cons.mp hy with rfl | hy'
        · exact ihmax y (List.mem_cons_self _ _)
        rcases List.mem_cons.mp hy' with rfl | hzs
        · exact le_trans (le_of_not_lt hcz) (ihmax c (List.mem_cons_self _ _))
        · exact ihmax y (List.mem_cons_of_mem _ hzs)
      · rw [hfold]
        by_cases hc : v (maxScan v c zs) ≤ v c
        · have hfindc : (c :: zs).find?
              (fun y => decide (v (maxScan v c zs) ≤ v y)) = some c :=
            List.find?_cons_of_pos _ (by simpa using hc)
          have hbc : maxScan v c zs = c := by
            rw [hfindc] at ihfind
            exact (Option.some_injective _ ihfind).symm
          rw [List.find?_cons_of_pos _ (by simpa using hc), hbc]
        · have hzfalse : ¬ (v (maxScan v c zs) ≤ v z) := by
            have hzc : v z ≤ v c := le_of_not_lt hcz
            omega
          rw [List.find?_cons_of_neg _ (by simpa using hc),
            List.find?_cons_of_neg _ (by simpa using hzfalse)]
          rw [List.find?_cons_of_neg _ (by simpa using hc)] at ihfind
          exact ihfind

/-- A four-node tree realizing the spec's scenario: root children with
visit counts a ↦ 2, b ↦ 7, c ↦ 1. -/
def scenarioTree : Tree :=
  [⟨none, none, [((0,0,0,0), 1), ((0,0,0,1), 2), ((0,0,0,2), 3)], [], 10, 5⟩,
   ⟨some 0, some (0,0,0,0), [], [], 2, 1⟩,
   ⟨some 0, some (0,0,0,1), [], [], 7, 4⟩,
   ⟨some 0, some (0,0,0,2), [], [], 1, 0⟩]

/-- C8. `get_best_action` returns the key of a root child attaining the
maximum visit count; among equal-visit children the first entry of the
children mapping wins (the scan's first maximal element); on the scenario
tree with child visits a ↦ 2, b ↦ 7, c ↦ 1 it returns `b`. -/
theorem get_best_action_spec (t : Tree) (root : MCTSNode) (c : Act × Nat)
    (cs : List (Act × Nat)) (h0 : t[0]? = some root)
    (hc : root.child_nodes = c :: cs) :
    (∃ b : Act × Nat, get_best_action t = some b.1 ∧
      b ∈ root.child_nodes ∧
      (∀ y ∈ root.child_nodes, visitsOf t y.2 ≤ visitsOf t b.2) ∧
      root.child_nodes.find? (fun y => decide (visitsOf t b.2 ≤ visitsOf t y.2)) =
        some b) ∧
    get_best_action scenarioTree = some (0,0,0,1) := by
  constructor
  · obtain ⟨hmem, hmax, hfind⟩ := maxScan_spec (fun y => visitsOf t y.2) cs c
    refine ⟨maxScan (fun y => visitsOf t y.2) c cs, ?_, ?_, ?_, ?_⟩
    · simp only [get_best_action, h0, hc]
      rfl
    · rw [hc]; exact hmem
    · rw [hc]; exact hmax
    · rw [hc]; exact hfind
  · rfl

/-- Witness for C8 on the scenario tree itself. -/
theorem get_best_action_spec_witness :
    (∃ b : Act × Nat, get_best_action scenarioTree = some b.1 ∧
      b ∈ (⟨none, none, [((0,0,0,0), 1), ((0,0,0,1), 2), ((0,0,0,2), 3)],
            [], 10, 5⟩ : MCTSNode).child_nodes ∧
      (∀ y ∈ (⟨none, none, [((0,0,0,0), 1), ((0,0,0,1), 2), ((0,0,0,2), 3)],
            [], 10, 5⟩ : MCTSNode).child_nodes,
        visitsOf scenarioTree y.2 ≤ visitsOf scenarioTree b.2) ∧
      (⟨none, none, [((0,0,0,0), 1), ((0,0,0,1), 2), ((0,0,0,2), 3)],
            [], 10, 5⟩ : MCTSNode).child_nodes.find?
          (fun y => decide (visitsOf scenarioTree b.2 ≤ visitsOf scenarioTree y.2)) =
        some b) ∧
    get_best_action scenarioTree = some (0,0,0,1) :=
  get_best_action_spec scenarioTree _ ((0,0,0,0), 1) [((0,0,0,1), 2), ((0,0,0,2), 3)]
    rfl rfl

/-- The well-formedness invariant `think` maintains on its store. -/
def WFTree (t : Tree) : Prop :=
  ParentsLT t ∧ ParentsSome t ∧ ChildrenLT t ∧ 0 < t.length

theorem backpropagate_rel (won : Bool) (fuel : Nat) (t : Tree) (st : Option Nat)
    (hpl : ParentsLT t) (j : Nat) :
    (backpropagate fuel t st won)[j]? = t[j]? ∨
    (∃ n : MCTSNode, t[j]? = some n ∧
      (backpropagate fuel t st won)[j]? = some (bump won n)) := by
  obtain ⟨_, hget⟩ := backpropagate_getElem? won fuel t st hpl
  by_cases hmem : j ∈ backpropPath t fuel st
  · cases hj : t[j]? with
    | none => left; rw [hget j, if_pos hmem, hj]; rfl
    | some n => right; exact ⟨n, rfl, by rw [hget j, if_pos hmem, hj]; rfl⟩
  · left; rw [hget j, if_neg hmem]

theorem wftree_backpropagate (won : Bool) (fuel : Nat) (st : Option Nat)
    {t : Tree} (hwf : WFTree t) : WFTree (backpropagate fuel t st won) := by
  obtain ⟨hpl, hps, hcl, hpos⟩ := hwf
  obtain ⟨hlen, _⟩ := backpropagate_getElem? won fuel t st hpl
  refine ⟨?_, ?_, ?_, by omega⟩
  · intro i n p hn hp
    rcases backpropagate_rel won fuel t st hpl i with h | ⟨m, hm, hbm⟩
    · exact hpl i n p (h ▸ hn) hp
    · rw [hbm] at hn
      cases hn
      exact hpl i m p hm hp
  · intro i n hn hipos
    rcases backpropagate_rel won fuel t st hpl i with h | ⟨m, hm, hbm⟩
    · exact hps i n (h ▸ hn) hipos
    · rw [hbm] at hn
      cases hn
      exact hps i m hm hipos
  · intro i n a c hn hmem
    rcases backpropagate_rel won fuel t st hpl i with h | ⟨m, hm, hbm⟩
    · have := hcl i n a c (h ▸ hn) hmem
      omega
    · rw [hbm] at hn
      cases hn
      have := hcl i m a c hm hmem
      omega

theorem think_step_expand_eq (board : Board σ) (bot : Nat) (cs : σ)
    (rand : Nat → Nat) (rfuel : Nat) (t : Tree) (n : MCTSNode)
    (hn : t[(traverse_nodes board t bot t.length 0 cs).1]? = some n)
    (hne : n.untried_actions ≠ []) :
    think_step board bot cs rand rfuel t =
      match expand_leaf board t (traverse_nodes board t bot t.length 0 cs).1
          (traverse_nodes board t bot t.length 0 cs).2 with
      | none => none
      | some (t', cid, cstate) =>
        match is_win board (rollout board rand rfuel 0 cstate) bot with
        | none => none
        | some won => some (backpropagate t'.length t' (some cid) won) := by
  rw [think_step]
  dsimp only
  rw [if_pos (by rw [hn]; simpa using hne)]

theorem think_step_skip_eq (board : Board σ) (bot : Nat) (cs : σ)
    (rand : Nat → Nat) (rfuel : Nat) (t : Tree) (n : MCTSNode)
    (hn : t[(traverse_nodes board t bot t.length 0 cs).1]? = some n)
    (hu : n.untried_actions = []) :
    think_step board bot cs rand rfuel t =
      match is_win board
          (rollout board rand rfuel 0 (traverse_nodes board t bot t.length 0 cs).2)
          bot with
      | none => none
      | some won =>
        some (backpropagate t.length t
          (some (traverse_nodes board t bot t.length 0 cs).1) won) := by
  rw [think_step]
  dsimp only
  split
  · rename_i hcond
    rw [hn] at hcond
    simp [hu] at hcond
  · rfl

theorem is_win_isSome_of_ended {board : Board σ} {s : σ} (bot : Nat)
    (hpv : (board.points_values s).isSome) : ∃ w, is_win board s bot = some w := by
  rw [is_win]
  match hs : board.points_values s with
  | none => rw [hs] at hpv; cases hpv
  | some outcome => exact ⟨_, rfl⟩

/-- One full iteration on a well-formed tree: it succeeds, keeps the tree
well-formed, grows it by at most one node, bumps the root's visit count by
exactly one, moves each surviving node's counters by (visits +0/1, wins by at
most the visit increment) while preserving the multiset
`untried_actions ++ children keys`, and creates at most a fresh leaf whose
untried actions are the legal actions of its state. -/
theorem think_step_master (board : Board σ) (bot : Nat) (cs : σ) (rand : Nat → Nat)
    (rfuel : Nat) (μ : σ → Nat)
    (Hμ : ∀ s a, a ∈ board.legal_actions s → μ (board.next_state s a) < μ s)
    (Hterm : ∀ s, board.legal_actions s = [] ↔ board.is_ended s = true)
    (Hpv : ∀ s, board.is_ended s = true → (board.points_values s).isSome)
    (Hfuel : ∀ s, μ s ≤ rfuel)
    (t : Tree) (hwf : WFTree t) :
    ∃ t', think_step board bot cs rand rfuel t = some t' ∧
      WFTree t' ∧
      t.length ≤ t'.length ∧ t'.length ≤ t.length + 1 ∧
      visitsOf t' 0 = visitsOf t 0 + 1 ∧
      (∀ (j : Nat) (n n' : MCTSNode), t[j]? = some n → t'[j]? = some n' →
        n.visits ≤ n'.visits ∧ n'.visits ≤ n.visits + 1 ∧
        n.wins ≤ n'.wins ∧ n'.wins + n.visits ≤ n.wins + n'.visits ∧
        (n'.untried_actions ++ n'.child_nodes.map Prod.fst).Perm
          (n.untried_actions ++ n.child_nodes.map Prod.fst)) ∧
      (∀ (j : Nat) (n' : MCTSNode), t[j]? = (none : Option MCTSNode) → t'[j]? = some n' →
        ∃ s', n'.untried_actions = board.legal_actions s' ∧ n'.child_nodes = [] ∧
          n'.visits ≤ 1 ∧ n'.wins ≤ n'.visits) := by
  obtain ⟨hpl, hps, hcl, hpos⟩ := hwf
  have hnid : (traverse_nodes board t bot t.length 0 cs).1 < t.length :=
    traverse_result_lt hcl t.length 0 cs hpos
  have hn : t[(traverse_nodes board t bot t.length 0 cs).1]? =
      some (t[(traverse_nodes board t bot t.length 0 cs).1]) :=
    List.getElem?_eq_getElem hnid
  by_cases hu : (t[(traverse_nodes board t bot t.length 0 cs).1]).untried_actions = []
  · -- skip branch: no expansion, backpropagate from the traversed node
    have heq := think_step_skip_eq board bot cs rand rfuel t _ hn hu
    have hended : board.is_ended
        (rollout board rand rfuel 0 (traverse_nodes board t bot t.length 0 cs).2) = true :=
      rollout_ended board rand μ Hμ Hterm rfuel 0 _ (Hfuel _)
    obtain ⟨won, hwin⟩ := is_win_isSome_of_ended bot (Hpv _ hended)
    simp only [hwin] at heq
    obtain ⟨hlenb, hgetb⟩ :=
      backpropagate_getElem? won t.length t
        (some (traverse_nodes board t bot t.length 0 cs).1) hpl
    have h0path : 0 ∈ backpropPath t t.length
        (some (traverse_nodes board t bot t.length 0 cs).1) :=
      zero_mem_backpropPath hpl hps t.length _ hnid hnid
    refine ⟨_, heq, wftree_backpropagate won t.length _ ⟨hpl, hps, hcl, hpos⟩,
      by omega, by omega, ?_, ?_, ?_⟩
    · have h0 : t[0]? = some t[0] := List.getElem?_eq_getElem hpos
      rw [visitsOf, hgetb 0, if_pos h0path, h0, visitsOf, h0]
      rfl
    · intro j n n' hjn hjn'
      rcases backpropagate_rel won t.length t _ hpl j with h | ⟨m, hm, hbm⟩
      · rw [h, hjn] at hjn'
        cases hjn'
        exact ⟨le_refl _, by omega, le_refl _, by omega, List.Perm.refl _⟩
      · rw [hjn] at hm
        cases hm
        rw [hbm] at hjn'
        cases hjn'
        refine ⟨by simp [bump], by simp [bump], by simp [bump], ?_, List.Perm.refl _⟩
        simp only [bump]
        split <;> omega
    · intro j n' hnone hsome
      rcases backpropagate_rel won t.length t _ hpl j with h | ⟨m, hm, hbm⟩
      · rw [h, hnone] at hsome; cases hsome
      · rw [hnone] at hm; cases hm
  · -- expand branch
    match hu' : (t[(traverse_nodes board t bot t.length 0 cs).1]).untried_actions with
    | [] => exact absurd hu' hu
    | action :: rest =>
    have heq := think_step_expand_eq board bot cs rand rfuel t _ hn (by rw [hu']; simp)
    obtain ⟨t', hEL, hlen', hchild, hnidnew, hframe⟩ :=
      expand_leaf_effect board t (traverse_nodes board t bot t.length 0 cs).1
        (traverse_nodes board t bot t.length 0 cs).2
        (t[(traverse_nodes board t bot t.length 0 cs).1]) action rest hn hu'
    simp only [hEL] at heq
    have hended : board.is_ended
        (rollout board rand rfuel 0
          (board.next_state (traverse_nodes board t bot t.length 0 cs).2 action)) = true :=
      rollout_ended board rand μ Hμ Hterm rfuel 0 _ (Hfuel _)
    obtain ⟨won, hwin⟩ := is_win_isSome_of_ended bot (Hpv _ hended)
    simp only [hwin] at heq
    have hcid0 : (0 : Nat) < t.length := hpos
    -- well-formedness of the expanded tree
    have hpl' : ParentsLT t' := by
      intro i m p hm hp
      by_cases hic : i = t.length
      · subst hic
        rw [hchild] at hm
        cases hm
        cases hp
        exact hnid
      · by_cases hin : i = (traverse_nodes board t bot t.length 0 cs).1
        · subst hin
          rw [hnidnew] at hm
          cases hm
          exact hpl _ _ p hn hp
        · rw [hframe i hin hic] at hm
          exact hpl i m p hm hp
    have hps' : ParentsSome t' := by
      intro i m hm hipos
      by_cases hic : i = t.length
      · subst hic
        rw [hchild] at hm
        cases hm
        rfl
      · by_cases hin : i = (traverse_nodes board t bot t.length 0 cs).1
        · subst hin
          rw [hnidnew] at hm
          cases hm
          have := hps _ _ hn hipos
          exact this
        · rw [hframe i hin hic] at hm
          exact hps i m hm hipos
    have hcl' : ChildrenLT t' := by
      intro i m a c hm hmem
      by_cases hic : i = t.length
      · subst hic
        rw [hchild] at hm
        cases hm
        cases hmem
      · by_cases hin : i = (traverse_nodes board t bot t.length 0 cs).1
        · subst hin
          rw [hnidnew] at hm
          cases hm
          rcases List.mem_append.mp hmem with hold | hnew
          · have := hcl _ _ a c hn hold
            omega
          · rcases List.mem_singleton.mp hnew with h
            cases h
            constructor
            · exact hnid
            · omega
        · rw [hframe i hin hic] at hm
          have := hcl i m a c hm hmem
          omega
    have hwf' : WFTree t' := ⟨hpl', hps', hcl', by omega⟩
    obtain ⟨hlenb, hgetb⟩ := backpropagate_getElem? won t'.length t' (some t.length) hpl'
    have hcidlt : t.length < t'.length := by omega
    have h0path : 0 ∈ backpropPath t' t'.length (some t.length) :=
      zero_mem_backpropPath hpl' hps' t'.length t.length hcidlt hcidlt
    refine ⟨_, heq, wftree_backpropagate won t'.length _ hwf', by omega, by omega,
      ?_, ?_, ?_⟩
    · -- root visit count
      have h0 : t[0]? = some t[0] := List.getElem?_eq_getElem hpos
      have h0v : ∃ r : MCTSNode, t'[0]? = some r ∧ r.visits = (t[0]).visits := by
        by_cases hin : (0 : Nat) = (traverse_nodes board t bot t.length 0 cs).1
        · have hidx : t[0]? = t[(traverse_nodes board t bot t.length 0 cs).1]? := by
            rw [← hin]
          have hEq : t[0] = t[(traverse_nodes board t bot t.length 0 cs).1] := by
            rw [h0, hn] at hidx
            exact Option.some.inj hidx
          have hnew0 : t'[0]? =
              t'[(traverse_nodes board t bot t.length 0 cs).1]? := by
            rw [← hin]
          exact ⟨_, hnew0.trans hnidnew, by rw [hEq]⟩
        · exact ⟨t[0], by rw [hframe 0 hin (by omega), h0], rfl⟩
      obtain ⟨r0, hr0, hr0v⟩ := h0v
      rw [visitsOf, hgetb 0, if_pos h0path, hr0, visitsOf, h0]
      simp [bump, hr0v]
    · -- surviving nodes
      intro j n n' hjn hjn'
      have hjlt : j < t.length := lt_length_of_getElem?_some hjn
      have hjc : j ≠ t.length := by omega
      have hperm : ∀ m : MCTSNode, t'[j]? = some m →
          (m.untried_actions ++ m.child_nodes.map Prod.fst).Perm
            (n.untried_actions ++ n.child_nodes.map Prod.fst) ∧
          m.visits = n.visits ∧ m.wins = n.wins := by
        intro m hm
        by_cases hin : j = (traverse_nodes board t bot t.length 0 cs).1
        · subst hin
          rw [hjn] at hn
          cases hn
          rw [hnidnew] at hm
          cases hm
          refine ⟨?_, rfl, rfl⟩
          rw [hu', List.map_append, ← List.append_assoc]
          exact List.perm_append_singleton _ _
        · rw [hframe j hin hjc, hjn] at hm
          cases hm
          exact ⟨List.Perm.refl _, rfl, rfl⟩
      rcases backpropagate_rel won t'.length t' (some t.length) hpl' j with h | ⟨m, hm, hbm⟩
      · rw [h] at hjn'
        obtain ⟨hp, hv, hw⟩ := hperm n' hjn'
        exact ⟨by omega, by omega, by omega, by omega, hp⟩
      · rw [hbm] at hjn'
        cases hjn'
        obtain ⟨hp, hv, hw⟩ := hperm m hm
        refine ⟨?_, ?_, ?_, ?_, hp⟩ <;> simp only [bump] <;> first
          | omega
          | (split <;> omega)
    · -- the freshly created node
      intro j n' hnone hsome
      have hj : j = t.length := by
        have h1 : t.length ≤ j := by
          by_contra hlt
          rw [List.getElem?_eq_getElem (by omega : j < t.length)] at hnone
          cases hnone
        have h2 : j < t'.length := by
          have := lt_length_of_getElem?_some hsome
          omega
        omega
      subst hj
      rcases backpropagate_rel won t'.length t' (some t.length) hpl' t.length with h | ⟨m, hm, hbm⟩
      · rw [h, hchild] at hsome
        cases hsome
        exact ⟨_, rfl, rfl, by simp [mkMCTSNode], by simp [mkMCTSNode]⟩
      · rw [hchild] at hm
        cases hm
        rw [hbm] at hsome
        cases hsome
        refine ⟨_, rfl, rfl, ?_, ?_⟩ <;>
          (dsimp only [bump, mkMCTSNode]
           first
           | omega
           | (split <;> omega))

theorem wftree_initial (board : Board σ) (cs : σ) :
    WFTree [mkMCTSNode none none (board.legal_actions cs)] := by
  refine ⟨?_, ?_, ?_, by norm_num⟩
  · intro i n p hn hp
    have hi : i < 1 := by simpa using lt_length_of_getElem?_some hn
    have h0 : i = 0 := by omega
    subst h0
    rw [List.getElem?_cons_zero] at hn
    cases hn
    cases hp
  · intro i n hn hipos
    have hi : i < 1 := by simpa using lt_length_of_getElem?_some hn
    omega
  · intro i n a c hn hmem
    have hi : i < 1 := by simpa using lt_length_of_getElem?_some hn
    have h0 : i = 0 := by omega
    subst h0
    rw [List.getElem?_cons_zero] at hn
    cases hn
    cases hmem

/-- Every iteration boundary of `think`'s loop yields a well-formed tree
whose root has been visited exactly once per completed iteration. -/
theorem think_loop_wf (board : Board σ) (bot : Nat) (cs : σ) (rand : Nat → Nat → Nat)
    (rfuel : Nat) (μ : σ → Nat)
    (Hμ : ∀ s a, a ∈ board.legal_actions s → μ (board.next_state s a) < μ s)
    (Hterm : ∀ s, board.legal_actions s = [] ↔ board.is_ended s = true)
    (Hpv : ∀ s, board.is_ended s = true → (board.points_values s).isSome)
    (Hfuel : ∀ s, μ s ≤ rfuel) :
    ∀ k, ∃ t, think_loop board bot cs rand rfuel k = some t ∧ WFTree t ∧
      visitsOf t 0 = k := by
  intro k
  induction k with
  | zero => exact ⟨_, rfl, wftree_initial board cs, rfl⟩
  | succ k ih =>
    obtain ⟨t, hloop, hwf, hv⟩ := ih
    obtain ⟨t', hstep, hwf', _, _, hv', _, _⟩ :=
      think_step_master board bot cs (rand k) rfuel μ Hμ Hterm Hpv Hfuel t hwf
    refine ⟨t', ?_, hwf', by omega⟩
    rw [think_loop, hloop, Option.some_bind]
    exact hstep

/-- Counters grow monotonically and the untried/children multiset of every
surviving node is preserved across iterations. -/
theorem think_loop_mono (board : Board σ) (bot : Nat) (cs : σ) (rand : Nat → Nat → Nat)
    (rfuel : Nat) (μ : σ → Nat)
    (Hμ : ∀ s a, a ∈ board.legal_actions s → μ (board.next_state s a) < μ s)
    (Hterm : ∀ s, board.legal_actions s = [] ↔ board.is_ended s = true)
    (Hpv : ∀ s, board.is_ended s = true → (board.points_values s).isSome)
    (Hfuel : ∀ s, μ s ≤ rfuel) :
    ∀ d k (t t' : Tree), think_loop board bot cs rand rfuel k = some t →
      think_loop board bot cs rand rfuel (k + d) = some t' →
      t.length ≤ t'.length ∧
      ∀ (j : Nat) (n n' : MCTSNode), t[j]? = some n → t'[j]? = some n' →
        n.visits ≤ n'.visits ∧ n.wins ≤ n'.wins ∧
        n'.wins + n.visits ≤ n.wins + n'.visits ∧
        (n'.untried_actions ++ n'.child_nodes.map Prod.fst).Perm
          (n.untried_actions ++ n.child_nodes.map Prod.fst) := by
  intro d
  induction d with
  | zero =>
    intro k t t' h1 h2
    rw [Nat.add_zero, h1] at h2
    cases h2
    refine ⟨le_refl _, fun j n n' hn hn' => ?_⟩
    rw [hn] at hn'
    cases hn'
    exact ⟨le_refl _, le_refl _, by omega, List.Perm.refl _⟩
  | succ d ihd =>
    intro k t t' h1 h2
    obtain ⟨tm, hm, hwfm, _⟩ :=
      think_loop_wf board bot cs rand rfuel μ Hμ Hterm Hpv Hfuel (k + d)
    have h2' : think_step board bot cs (rand (k + d)) rfuel tm = some t' := by
      have hsucc : k + (d + 1) = (k + d) + 1 := rfl
      rw [hsucc, think_loop, hm, Option.some_bind] at h2
      exact h2
    obtain ⟨t'', hstep, _, hlen1, hlen2, _, hrel, _⟩ :=
      think_step_master board bot cs (rand (k + d)) rfuel μ Hμ Hterm Hpv Hfuel tm hwfm
    rw [hstep] at h2'
    cases h2'
    obtain ⟨hlenkm, hrelkm⟩ := ihd k t tm h1 hm
    refine ⟨by omega, fun j n n' hn hn' => ?_⟩
    have hj : j < t.length := lt_length_of_getElem?_some hn
    have hmj : tm[j]? = some tm[j] := List.getElem?_eq_getElem (by omega)
    obtain ⟨h1v, h1w, h1d, h1p⟩ := hrelkm j n tm[j] hn hmj
    obtain ⟨h2v, _, h2w, h2d, h2p⟩ := hrel j tm[j] n' hmj hn'
    exact ⟨by omega, by omega, by omega, h2p.trans h1p⟩

/-- C4. Under the finite-game guarantee (a measure decreasing along legal
transitions, bounded by the rollout fuel) and the engine contract
("legal actions empty iff terminal", outcome defined on terminal states):
rollout always reaches a terminal state, `is_win`'s outcome query succeeds
on every terminal state, and every iteration of `think`'s loop completes —
the assertion in `is_win` is unreachable throughout `think`. -/
theorem rollout_is_win_safety (board : Board σ) (bot : Nat) (cs : σ)
    (rand : Nat → Nat → Nat) (rfuel : Nat) (μ : σ → Nat)
    (Hμ : ∀ s a, a ∈ board.legal_actions s → μ (board.next_state s a) < μ s)
    (Hterm : ∀ s, board.legal_actions s = [] ↔ board.is_ended s = true)
    (Hpv : ∀ s, board.is_ended s = true → (board.points_values s).isSome)
    (Hfuel : ∀ s, μ s ≤ rfuel) :
    (∀ (rand' : Nat → Nat) (k : Nat) (s : σ) (fuel : Nat), μ s ≤ fuel →
      board.is_ended (rollout board rand' fuel k s) = true) ∧
    (∀ s, board.is_ended s = true → (is_win board s bot).isSome) ∧
    (∀ k, (think_loop board bot cs rand rfuel k).isSome) := by
  refine ⟨?_, ?_, ?_⟩
  · intro rand' k s fuel hμs
    exact rollout_ended board rand' μ Hμ Hterm fuel k s hμs
  · intro s hs
    obtain ⟨w, hw⟩ := is_win_isSome_of_ended bot (Hpv s hs)
    rw [hw]
    rfl
  · intro k
    obtain ⟨t, h, _⟩ := think_loop_wf board bot cs rand rfuel μ Hμ Hterm Hpv Hfuel k
    rw [h]
    rfl

/-- A four-state countdown game over `Fin 4`, used by witnesses that need
the finite-game measure hypotheses to be checkable. -/
def finBoard : Board (Fin 4) where
  current_player s := if s.val % 2 = 0 then 1 else 2
  legal_actions s := if s.val = 0 then [] else [(0, 0, 1, 1)]
  next_state s _ := ⟨s.val - 1, by omega⟩
  is_ended s := s.val == 0
  points_values s :=
    if s.val = 0 then some (fun p => if p = 1 then 1 else 0) else none

theorem finBoard_measure :
    ∀ (s : Fin 4) a, a ∈ finBoard.legal_actions s →
      (finBoard.next_state s a).val < s.val := by
  intro s a ha
  rcases s with ⟨sv, hsv⟩
  by_cases h0 : sv = 0
  · subst h0
    simp [finBoard] at ha
  · simp only [finBoard]
    omega

/-- C7. After `N` completed iterations on a non-terminal root state the root
node's visit count is exactly `N` (in particular for the default budget
`num_nodes = 1000`); with a budget of one simulation the root additionally
ends with exactly one child, the expanded node. -/
theorem think_root_visits (board : Board σ) (bot : Nat) (cs : σ)
    (rand : Nat → Nat → Nat) (rfuel : Nat) (μ : σ → Nat)
    (Hμ : ∀ s a, a ∈ board.legal_actions s → μ (board.next_state s a) < μ s)
    (Hterm : ∀ s, board.legal_actions s = [] ↔ board.is_ended s = true)
    (Hpv : ∀ s, board.is_ended s = true → (board.points_values s).isSome)
    (Hfuel : ∀ s, μ s ≤ rfuel)
    (hroot : board.legal_actions cs ≠ []) :
    (∀ N, ∃ t, think_loop board bot cs rand rfuel N = some t ∧
      ∃ root : MCTSNode, t[0]? = some root ∧ root.visits = N) ∧
    (∃ t, think_loop board bot cs rand rfuel 1 = some t ∧
      ∃ root : MCTSNode, t[0]? = some root ∧ root.visits = 1 ∧
        root.child_nodes.length = 1) := by
  constructor
  · intro N
    obtain ⟨t, hloop, hwf, hv⟩ :=
      think_loop_wf board bot cs rand rfuel μ Hμ Hterm Hpv Hfuel N
    have hpos : 0 < t.length := hwf.2.2.2
    have h0 : t[0]? = some t[0] := List.getElem?_eq_getElem hpos
    refine ⟨t, hloop, t[0], h0, ?_⟩
    rw [visitsOf, h0] at hv
    exact hv
  · -- one concrete iteration
    match hla : board.legal_actions cs with
    | [] => exact absurd hla hroot
    | action :: rest =>
    have hn0 : ([mkMCTSNode none none (board.legal_actions cs)] : Tree)[0]? =
        some (mkMCTSNode none none (board.legal_actions cs)) := rfl
    have htrav : traverse_nodes board [mkMCTSNode none none (board.legal_actions cs)]
        bot ([mkMCTSNode none none (board.legal_actions cs)] : Tree).length 0 cs =
        (0, cs) :=
      traverse_stop board _ bot _ 0 cs _ hn0 (Or.inl (by simpa [mkMCTSNode] using hroot))
    have heq := think_step_expand_eq board bot cs (rand 0) rfuel
      [mkMCTSNode none none (board.legal_actions cs)] _
      (by rw [htrav]; exact hn0) (by simpa [mkMCTSNode] using hroot)
    simp only [htrav] at heq
    obtain ⟨t', hEL, hlen', hchild, hnidnew, hframe⟩ :=
      expand_leaf_effect board [mkMCTSNode none none (board.legal_actions cs)] 0 cs
        (mkMCTSNode none none (board.legal_actions cs)) action rest hn0 hla
    simp only [hEL] at heq
    have hended : board.is_ended
        (rollout board (rand 0) rfuel 0 (board.next_state cs action)) = true :=
      rollout_ended board (rand 0) μ Hμ Hterm rfuel 0 _ (Hfuel _)
    obtain ⟨won, hwin⟩ := is_win_isSome_of_ended bot (Hpv _ hended)
    simp only [hwin] at heq
    have hlen1 : ([mkMCTSNode none none (board.legal_actions cs)] : Tree).length = 1 :=
      rfl
    have hpl' : ParentsLT t' := by
      intro i n p hn hp
      have hi : i < 2 := by
        have := lt_length_of_getElem?_some hn
        omega
      match i with
      | 0 =>
        rw [hnidnew] at hn
        cases hn
        cases hp
      | 1 =>
        rw [hlen1] at hchild
        rw [hchild] at hn
        cases hn
        cases hp
        omega
    have hps' : ParentsSome t' := by
      intro i n hn hipos
      have hi : i < 2 := by
        have := lt_length_of_getElem?_some hn
        omega
      match i with
      | 0 => omega
      | 1 =>
        rw [hlen1] at hchild
        rw [hchild] at hn
        cases hn
        rfl
    obtain ⟨hlenb, hgetb⟩ :=
      backpropagate_getElem? won t'.length t' (some 1) hpl'
    have h0path : 0 ∈ backpropPath t' t'.length (some 1) :=
      zero_mem_backpropPath hpl' hps' t'.length 1 (by omega) (by omega)
    refine ⟨backpropagate t'.length t' (some 1) won, ?_, ?_, ?_, ?_, ?_⟩
    · rw [hlen1] at heq
      exact heq
    · exact bump won { mkMCTSNode none none (board.legal_actions cs) with
        untried_actions := rest,
        child_nodes := (mkMCTSNode none none (board.legal_actions cs)).child_nodes ++
          [(action, 1)] }
    · rw [hgetb 0, if_pos h0path]
      rw [hlen1] at hnidnew
      rw [hnidnew]
      rfl
    · rfl
    · rfl

/-- Witness for C4 on the `Fin 4` countdown board. -/
theorem rollout_is_win_safety_witness :
    (∀ (rand' : Nat → Nat) (k : Nat) (s : Fin 4) (fuel : Nat), s.val ≤ fuel →
      finBoard.is_ended (rollout finBoard rand' fuel k s) = true) ∧
    (∀ s : Fin 4, finBoard.is_ended s = true → (is_win finBoard s 1).isSome) ∧
    (∀ k, (think_loop finBoard 1 (2 : Fin 4) (fun _ _ => 0) 3 k).isSome) :=
  rollout_is_win_safety finBoard 1 (2 : Fin 4) (fun _ _ => 0) 3 Fin.val
    finBoard_measure (by decide) (by decide) (by decide)

/-- Witness for C7 on the `Fin 4` countdown board. -/
theorem think_root_visits_witness :
    (∀ N, ∃ t, think_loop finBoard 1 (2 : Fin 4) (fun _ _ => 0) 3 N = some t ∧
      ∃ root : MCTSNode, t[0]? = some root ∧ root.visits = N) ∧
    (∃ t, think_loop finBoard 1 (2 : Fin 4) (fun _ _ => 0) 3 1 = some t ∧
      ∃ root : MCTSNode, t[0]? = some root ∧ root.visits = 1 ∧
        root.child_nodes.length = 1) :=
  think_root_visits finBoard 1 (2 : Fin 4) (fun _ _ => 0) 3 Fin.val
    finBoard_measure (by decide) (by decide) (by decide) (by decide)

/-- C10. Throughout `think`'s loop, every node satisfies `0 ≤ wins ≤ visits`
(the counters live in `Nat`, so `0 ≤ wins` is inherent to the model since
`wins` only accumulates the boolean outcome), both counters are monotone
across iterations, and the only operation touching them — one
backpropagation step — either leaves a node alone or adds exactly 1 to its
visits and the 0/1 outcome to its wins. -/
theorem counters_invariant (board : Board σ) (bot : Nat) (cs : σ)
    (rand : Nat → Nat → Nat) (rfuel : Nat) (μ : σ → Nat)
    (Hμ : ∀ s a, a ∈ board.legal_actions s → μ (board.next_state s a) < μ s)
    (Hterm : ∀ s, board.legal_actions s = [] ↔ board.is_ended s = true)
    (Hpv : ∀ s, board.is_ended s = true → (board.points_values s).isSome)
    (Hfuel : ∀ s, μ s ≤ rfuel) :
    (∀ k t, think_loop board bot cs rand rfuel k = some t →
      ∀ (j : Nat) (n : MCTSNode), t[j]? = some n → n.wins ≤ n.visits) ∧
    (∀ k k', k ≤ k' → ∀ t t', think_loop board bot cs rand rfuel k = some t →
      think_loop board bot cs rand rfuel k' = some t' →
      ∀ (j : Nat) (n n' : MCTSNode), t[j]? = some n → t'[j]? = some n' →
        n.wins ≤ n'.wins ∧ n.visits ≤ n'.visits ∧
        n'.wins + n.visits ≤ n.wins + n'.visits) ∧
    (∀ (won : Bool) (fuelb : Nat) (tb : Tree) (st : Option Nat), ParentsLT tb →
      ∀ (j : Nat) (n : MCTSNode), tb[j]? = some n →
        (backpropagate fuelb tb st won)[j]? = some n ∨
        (backpropagate fuelb tb st won)[j]? =
          some { n with visits := n.visits + 1,
                        wins := n.wins + (if won then 1 else 0) }) := by
  refine ⟨?_, ?_, ?_⟩
  · intro k
    induction k with
    | zero =>
      intro t h j n hjn
      rw [think_loop] at h
      cases h
      have hj : j < 1 := by simpa using lt_length_of_getElem?_some hjn
      have h0 : j = 0 := by omega
      subst h0
      rw [List.getElem?_cons_zero] at hjn
      cases hjn
      exact le_refl _
    | succ k ih =>
      intro t' h' j n' hjn'
      obtain ⟨t, hloop, hwf, _⟩ :=
        think_loop_wf board bot cs rand rfuel μ Hμ Hterm Hpv Hfuel k
      have hstep' : think_step board bot cs (rand k) rfuel t = some t' := by
        rw [think_loop, hloop, Option.some_bind] at h'
        exact h'
      obtain ⟨t'', hstep, _, _, _, _, hrel, hnew⟩ :=
        think_step_master board bot cs (rand k) rfuel μ Hμ Hterm Hpv Hfuel t hwf
      rw [hstep] at hstep'
      cases hstep'
      by_cases hj : j < t.length
      · have hn : t[j]? = some t[j] := List.getElem?_eq_getElem hj
        have hwv := ih t hloop j t[j] hn
        obtain ⟨_, _, _, hd, _⟩ := hrel j t[j] n' hn hjn'
        omega
      · have hnone : t[j]? = (none : Option MCTSNode) :=
          List.getElem?_eq_none (by omega)
        obtain ⟨s', _, _, _, hwv⟩ := hnew j n' hnone hjn'
        exact hwv
  · intro k k' hkk t t' h1 h2
    obtain ⟨_, hrel⟩ :=
      think_loop_mono board bot cs rand rfuel μ Hμ Hterm Hpv Hfuel (k' - k) k t t'
        h1 (by rw [show k + (k' - k) = k' by omega]; exact h2)
    intro j n n' hn hn'
    obtain ⟨hv, hw, hd, _⟩ := hrel j n n' hn hn'
    exact ⟨hw, hv, hd⟩
  · intro won fuelb tb st hpl j n hn
    rcases backpropagate_rel won fuelb tb st hpl j with h | ⟨m, hm, hbm⟩
    · left
      rw [h]
      exact hn
    · rw [hn] at hm
      cases hm
      right
      exact hbm

/-- Witness for C10 on the `Fin 4` countdown board. -/
theorem counters_invariant_witness :
    (∀ k t, think_loop finBoard 1 (2 : Fin 4) (fun _ _ => 0) 3 k = some t →
      ∀ (j : Nat) (n : MCTSNode), t[j]? = some n → n.wins ≤ n.visits) ∧
    (∀ k k', k ≤ k' → ∀ t t',
      think_loop finBoard 1 (2 : Fin 4) (fun _ _ => 0) 3 k = some t →
      think_loop finBoard 1 (2 : Fin 4) (fun _ _ => 0) 3 k' = some t' →
      ∀ (j : Nat) (n n' : MCTSNode), t[j]? = some n → t'[j]? = some n' →
        n.wins ≤ n'.wins ∧ n.visits ≤ n'.visits ∧
        n'.wins + n.visits ≤ n.wins + n'.visits) ∧
    (∀ (won : Bool) (fuelb : Nat) (tb : Tree) (st : Option Nat), ParentsLT tb →
      ∀ (j : Nat) (n : MCTSNode), tb[j]? = some n →
        (backpropagate fuelb tb st won)[j]? = some n ∨
        (backpropagate fuelb tb st won)[j]? =
          some { n with visits := n.visits + 1,
                        wins := n.wins + (if won then 1 else 0) }) :=
  counters_invariant finBoard 1 (2 : Fin 4) (fun _ _ => 0) 3 Fin.val
    finBoard_measure (by decide) (by decide) (by decide)

/-- C9. The root is created holding the full legal-action list as untried
actions and no children; at every iteration boundary every node's
`untried_actions ++ children keys` list is duplicate-free (so the two sets
are disjoint); that list is preserved as a multiset across iterations — it
always equals, up to permutation, the legal-action set captured at the
node's creation, so the two lengths always sum to its size; a node is
created with the legal actions of its state untried and no children; and
one expansion moves exactly the popped action from the untried list to the
end of the children keys. -/
theorem untried_children_invariant (board : Board σ) (bot : Nat) (cs : σ)
    (rand : Nat → Nat → Nat) (rfuel : Nat) (μ : σ → Nat)
    (Hμ : ∀ s a, a ∈ board.legal_actions s → μ (board.next_state s a) < μ s)
    (Hterm : ∀ s, board.legal_actions s = [] ↔ board.is_ended s = true)
    (Hpv : ∀ s, board.is_ended s = true → (board.points_values s).isSome)
    (Hfuel : ∀ s, μ s ≤ rfuel)
    (HN : ∀ s, (board.legal_actions s).Nodup) :
    (think_loop board bot cs rand rfuel 0 =
      some [mkMCTSNode none none (board.legal_actions cs)]) ∧
    (∀ k t, think_loop board bot cs rand rfuel k = some t →
      ∀ (j : Nat) (n : MCTSNode), t[j]? = some n →
        (n.untried_actions ++ n.child_nodes.map Prod.fst).Nodup) ∧
    (∀ k d t t', think_loop board bot cs rand rfuel k = some t →
      think_loop board bot cs rand rfuel (k + d) = some t' →
      ∀ (j : Nat) (n n' : MCTSNode), t[j]? = some n → t'[j]? = some n' →
        (n'.untried_actions ++ n'.child_nodes.map Prod.fst).Perm
          (n.untried_actions ++ n.child_nodes.map Prod.fst)) ∧
    (∀ k t t', think_loop board bot cs rand rfuel k = some t →
      think_loop board bot cs rand rfuel (k + 1) = some t' →
      ∀ (j : Nat) (n' : MCTSNode), t[j]? = (none : Option MCTSNode) →
        t'[j]? = some n' →
        ∃ s', n'.untried_actions = board.legal_actions s' ∧ n'.child_nodes = []) ∧
    (∀ (t : Tree) (nid : Nat) (state : σ) (n : MCTSNode) (action : Act)
        (rest : List Act) (t' : Tree) (cid : Nat) (s' : σ),
      t[nid]? = some n → n.untried_actions = action :: rest →
      expand_leaf board t nid state = some (t', cid, s') →
      cid = t.length ∧ t'.length = t.length + 1 ∧
      ∃ n', t'[nid]? = some n' ∧ n'.untried_actions = rest ∧
        n'.child_nodes = n.child_nodes ++ [(action, cid)]) := by
  refine ⟨rfl, ?_, ?_, ?_, ?_⟩
  · intro k
    induction k with
    | zero =>
      intro t h j n hjn
      rw [think_loop] at h
      cases h
      have hj : j < 1 := by simpa using lt_length_of_getElem?_some hjn
      have h0 : j = 0 := by omega
      subst h0
      rw [List.getElem?_cons_zero] at hjn
      cases hjn
      simpa [mkMCTSNode] using HN cs
    | succ k ih =>
      intro t' h' j n' hjn'
      obtain ⟨t, hloop, hwf, _⟩ :=
        think_loop_wf board bot cs rand rfuel μ Hμ Hterm Hpv Hfuel k
      have hstep' : think_step board bot cs (rand k) rfuel t = some t' := by
        rw [think_loop, hloop, Option.some_bind] at h'
        exact h'
      obtain ⟨t'', hstep, _, _, _, _, hrel, hnew⟩ :=
        think_step_master board bot cs (rand k) rfuel μ Hμ Hterm Hpv Hfuel t hwf
      rw [hstep] at hstep'
      cases hstep'
      by_cases hj : j < t.length
      · have hn : t[j]? = some t[j] := List.getElem?_eq_getElem hj
        have hnd := ih t hloop j t[j] hn
        obtain ⟨_, _, _, _, hperm⟩ := hrel j t[j] n' hn hjn'
        exact hperm.nodup_iff.mpr hnd
      · have hnone : t[j]? = (none : Option MCTSNode) :=
          List.getElem?_eq_none (by omega)
        obtain ⟨s', hunt, hch, _, _⟩ := hnew j n' hnone hjn'
        rw [hunt, hch]
        simpa using HN s'
  · intro k d t t' h1 h2
    obtain ⟨_, hrel⟩ :=
      think_loop_mono board bot cs rand rfuel μ Hμ Hterm Hpv Hfuel d k t t' h1 h2
    intro j n n' hn hn'
    exact (hrel j n n' hn hn').2.2.2
  · intro k t t' h1 h2 j n' hnone hsome
    obtain ⟨t₁, hloop₁, hwf, _⟩ :=
      think_loop_wf board bot cs rand rfuel μ Hμ Hterm Hpv Hfuel k
    rw [h1] at hloop₁
    cases hloop₁
    have hstep' : think_step board bot cs (rand k) rfuel t = some t' := by
      rw [think_loop, h1, Option.some_bind] at h2
      exact h2
    obtain ⟨t'', hstep, _, _, _, _, _, hnew⟩ :=
      think_step_master board bot cs (rand k) rfuel μ Hμ Hterm Hpv Hfuel t hwf
    rw [hstep] at hstep'
    cases hstep'
    obtain ⟨s', hunt, hch, _, _⟩ := hnew j n' hnone hsome
    exact ⟨s', hunt, hch⟩
  · intro t nid state n action rest t' cid s' hn hu hEL'
    obtain ⟨t'', hEL2, hlen2, _, hnidnew2, _⟩ :=
      expand_leaf_effect board t nid state n action rest hn hu
    rw [hEL2] at hEL'
    cases hEL'
    exact ⟨rfl, hlen2, _, hnidnew2, rfl, rfl⟩

/-- Witness for C9 on the `Fin 4` countdown board. -/
theorem untried_children_invariant_witness :
    (think_loop finBoard 1 (2 : Fin 4) (fun _ _ => 0) 3 0 =
      some [mkMCTSNode none none (finBoard.legal_actions 2)]) ∧
    (∀ k t, think_loop finBoard 1 (2 : Fin 4) (fun _ _ => 0) 3 k = some t →
      ∀ (j : Nat) (n : MCTSNode), t[j]? = some n →
        (n.untried_actions ++ n.child_nodes.map Prod.fst).Nodup) ∧
    (∀ k d t t', think_loop finBoard 1 (2 : Fin 4) (fun _ _ => 0) 3 k = some t →
      think_loop finBoard 1 (2 : Fin 4) (fun _ _ => 0) 3 (k + d) = some t' →
      ∀ (j : Nat) (n n' : MCTSNode), t[j]? = some n → t'[j]? = some n' →
        (n'.untried_actions ++ n'.child_nodes.map Prod.fst).Perm
          (n.untried_actions ++ n.child_nodes.map Prod.fst)) ∧
    (∀ k t t', think_loop finBoard 1 (2 : Fin 4) (fun _ _ => 0) 3 k = some t →
      think_loop finBoard 1 (2 : Fin 4) (fun _ _ => 0) 3 (k + 1) = some t' →
      ∀ (j : Nat) (n' : MCTSNode), t[j]? = (none : Option MCTSNode) →
        t'[j]? = some n' →
        ∃ s', n'.untried_actions = finBoard.legal_actions s' ∧
          n'.child_nodes = []) ∧
    (∀ (t : Tree) (nid : Nat) (state : Fin 4) (n : MCTSNode) (action : Act)
        (rest : List Act) (t' : Tree) (cid : Nat) (s' : Fin 4),
      t[nid]? = some n → n.untried_actions = action :: rest →
      expand_leaf finBoard t nid state = some (t', cid, s') →
      cid = t.length ∧ t'.length = t.length + 1 ∧
      ∃ n', t'[nid]? = some n' ∧ n'.untried_actions = rest ∧
        n'.child_nodes = n.child_nodes ++ [(action, cid)]) :=
  untried_children_invariant finBoard 1 (2 : Fin 4) (fun _ _ => 0) 3 Fin.val
    finBoard_measure (by decide) (by decide) (by decide) (by decide)

end Mcts
